import Mathlib

/-!
Verification of the brand-matching and relevance-scoring core of the
`pesquisa_amazon` repository.  Text is modelled as `List Char`
(Python `str`), numbers as `ℚ` (Python floats in the deterministic
arithmetic paths) and as `ℝ` where the source uses `math.log`.
Each definition is a shallow embedding of the correspondingly named
Python function in `src/pesquisa_amazon`.
-/

namespace PesquisaAmazon

/-! ### Character classes (ASCII codes: '0' = 48, '9' = 57, 'A' = 65,
'Z' = 90, 'a' = 97, 'z' = 122, space = 32) -/

/-- Python whitespace characters, as stripped by `str.strip()` and
matched by `\s` in the places the code uses it (only ASCII whitespace
is relevant to the data flowing through this program). -/
def isSpaceB (c : Char) : Bool :=
  c = ' ' || c = '\t' || c = '\n' || c = '\x0d' || c = '\x0b' || c = '\x0c'

/-- ASCII decimal digit, the test `ch.isdigit()` performs on the data here. -/
def isDigitB (c : Char) : Bool :=
  48 ≤ c.toNat && c.toNat ≤ 57

/-- Uppercase ASCII letter or digit: the class `[A-Z0-9]` kept by
`_normalizar_texto`'s first regex. -/
def isUpperAlnum (c : Char) : Bool :=
  (65 ≤ c.toNat && c.toNat ≤ 90) || isDigitB c

/-- Models the accent-stripping step of `_remover_acentos` (NFKD
decomposition followed by dropping combining marks) as a character
table for the Latin-1 letters that occur in this program's data;
NFKD is the identity below U+00C0 (192), and characters without a
listed decomposition map to themselves. -/
def deaccentChar (c : Char) : Char :=
  if c.toNat < 192 then c
  else if c = 'á' || c = 'à' || c = 'â' || c = 'ã' || c = 'ä' then 'a'
  else if c = 'Á' || c = 'À' || c = 'Â' || c = 'Ã' || c = 'Ä' then 'A'
  else if c = 'é' || c = 'è' || c = 'ê' || c = 'ë' then 'e'
  else if c = 'É' || c = 'È' || c = 'Ê' || c = 'Ë' then 'E'
  else if c = 'í' || c = 'ì' || c = 'î' || c = 'ï' then 'i'
  else if c = 'Í' || c = 'Ì' || c = 'Î' || c = 'Ï' then 'I'
  else if c = 'ó' || c = 'ò' || c = 'ô' || c = 'õ' || c = 'ö' then 'o'
  else if c = 'Ó' || c = 'Ò' || c = 'Ô' || c = 'Õ' || c = 'Ö' then 'O'
  else if c = 'ú' || c = 'ù' || c = 'û' || c = 'ü' then 'u'
  else if c = 'Ú' || c = 'Ù' || c = 'Û' || c = 'Ü' then 'U'
  else if c = 'ç' then 'c'
  else if c = 'Ç' then 'C'
  else if c = 'ñ' then 'n'
  else if c = 'Ñ' then 'N'
  else c

/-- `str.upper()` on a single character (ASCII repertoire, which is
all that survives accent stripping here). -/
def pyUpperChar (c : Char) : Char :=
  if 97 ≤ c.toNat && c.toNat ≤ 122 then Char.ofNat (c.toNat - 32) else c

/-- `str.lower()` on a single character (ASCII repertoire). -/
def pyLowerChar (c : Char) : Char :=
  if 65 ≤ c.toNat && c.toNat ≤ 90 then Char.ofNat (c.toNat + 32) else c

/-- `str.strip()`: drop leading and trailing whitespace. -/
def pyStrip (s : List Char) : List Char :=
  ((s.dropWhile isSpaceB).reverse.dropWhile isSpaceB).reverse

/-! ### `_normalizar_texto`

The source applies, in order: `strip`, accent removal, `upper`,
`re.sub(r"[^A-Z0-9]+", " ", ·)`, `re.sub(r"\s+", " ", ·).strip()`.
The composite of the two regex passes plus the final strip replaces
every maximal run of non-`[A-Z0-9]` characters by one space and trims
the ends; we embed that composite as: map every non-`[A-Z0-9]`
character to a space, then rebuild the string from its maximal
space-free words joined by single spaces (extensionally the same
function). -/

/-- Maximal nonempty runs of non-space characters, in order
(`acc` holds the current run, reversed). -/
def splitWordsAux : List Char → List Char → List (List Char)
  | [], acc => if acc.isEmpty then [] else [acc.reverse]
  | c :: rest, acc =>
    if c = ' ' then
      if acc.isEmpty then splitWordsAux rest []
      else acc.reverse :: splitWordsAux rest []
    else splitWordsAux rest (c :: acc)

def splitWords (s : List Char) : List (List Char) :=
  splitWordsAux s []

/-- Join words with single spaces (no leading/trailing space). -/
def joinWords : List (List Char) → List Char
  | [] => []
  | [w] => w
  | w :: ws => w ++ ' ' :: joinWords ws

/-- Embedding of `_normalizar_texto`. -/
def normalizarTexto (s : List Char) : List Char :=
  let upped := (pyStrip s).map (fun c => pyUpperChar (deaccentChar c))
  let spaced := upped.map (fun c => if isUpperAlnum c then c else ' ')
  joinWords (splitWords spaced)

/-! ### Character-level lemmas -/

theorem toNat_space : (' ' : Char).toNat = 32 := rfl

theorem char_eq_of_toNat_eq {c d : Char} (h : c.toNat = d.toNat) : c = d :=
  Char.ext (UInt32.ext h)

theorem isUpperAlnum_toNat {c : Char} (h : isUpperAlnum c = true) :
    48 ≤ c.toNat ∧ c.toNat ≤ 90 := by
  simp only [isUpperAlnum, isDigitB, Bool.or_eq_true, Bool.and_eq_true,
    decide_eq_true_eq] at h
  omega

theorem isUpperAlnum_not_space {c : Char} (h : isUpperAlnum c = true) :
    isSpaceB c = false ∧ c ≠ ' ' := by
  have h' := isUpperAlnum_toNat h
  have hne : ∀ d : Char, d.toNat < 48 → c ≠ d := by
    intro d hd he
    subst he
    omega
  refine ⟨?_, hne ' ' (by decide)⟩
  simp only [isSpaceB, Bool.or_eq_false_iff, decide_eq_false_iff_not]
  exact ⟨⟨⟨⟨⟨hne ' ' (by decide), hne '\t' (by decide)⟩, hne '\n' (by decide)⟩,
    hne '\x0d' (by decide)⟩, hne '\x0b' (by decide)⟩, hne '\x0c' (by decide)⟩

theorem deaccentChar_id {c : Char} (h : c.toNat < 192) : deaccentChar c = c := by
  simp only [deaccentChar]
  rw [if_pos h]

theorem pyUpperChar_id {c : Char} (h : ¬ (97 ≤ c.toNat ∧ c.toNat ≤ 122)) :
    pyUpperChar c = c := by
  simp only [pyUpperChar]
  rw [if_neg (by simpa using h)]

theorem normStep_id {c : Char} (h : isUpperAlnum c = true) :
    pyUpperChar (deaccentChar c) = c := by
  have h' := isUpperAlnum_toNat h
  rw [deaccentChar_id (by omega), pyUpperChar_id (by omega)]

theorem normStep_space : pyUpperChar (deaccentChar ' ') = ' ' := by decide

/-! ### Lemmas on `splitWords` / `joinWords` -/

theorem splitWordsAux_nil_cons (a : Char) (t : List Char) :
    splitWordsAux [] (a :: t) = [(a :: t).reverse] := rfl

theorem splitWordsAux_space_nil (rest : List Char) :
    splitWordsAux (' ' :: rest) [] = splitWordsAux rest [] := rfl

theorem splitWordsAux_space_cons (rest : List Char) (a : Char) (t : List Char) :
    splitWordsAux (' ' :: rest) (a :: t) = (a :: t).reverse :: splitWordsAux rest [] := rfl

theorem splitWordsAux_nonspace {c : Char} (rest acc : List Char) (h : c ≠ ' ') :
    splitWordsAux (c :: rest) acc = splitWordsAux rest (c :: acc) := by
  simp [splitWordsAux, h]

/-- Every word produced by the splitter is nonempty. -/
theorem splitWordsAux_ne_nil :
    ∀ (s acc : List Char), ∀ w ∈ splitWordsAux s acc, w ≠ [] := by
  intro s
  induction s with
  | nil =>
    intro acc w hw
    cases acc with
    | nil => simp [splitWordsAux] at hw
    | cons a t =>
      rw [splitWordsAux_nil_cons] at hw
      simp only [List.mem_singleton] at hw
      subst hw
      simp
  | cons c rest ih =>
    intro acc w hw
    by_cases hc : c = ' '
    · subst hc
      cases acc with
      | nil =>
        rw [splitWordsAux_space_nil] at hw
        exact ih [] w hw
      | cons a t =>
        rw [splitWordsAux_space_cons] at hw
        rcases List.mem_cons.mp hw with hw | hw
        · subst hw; simp
        · exact ih [] w hw
    · rw [splitWordsAux_nonspace rest acc hc] at hw
      exact ih (c :: acc) w hw

/-- Characters of each word satisfy any property holding of the
accumulator characters and of the non-space input characters. -/
theorem splitWordsAux_chars (Q : Char → Prop) :
    ∀ (s acc : List Char), (∀ c ∈ acc, Q c ∧ c ≠ ' ') →
      (∀ c ∈ s, c ≠ ' ' → Q c) →
      ∀ w ∈ splitWordsAux s acc, ∀ c ∈ w, Q c ∧ c ≠ ' ' := by
  intro s
  induction s with
  | nil =>
    intro acc hacc _ w hw c hc
    cases acc with
    | nil => simp [splitWordsAux] at hw
    | cons a t =>
      rw [splitWordsAux_nil_cons] at hw
      simp only [List.mem_singleton] at hw
      subst hw
      exact hacc c (List.mem_reverse.mp hc)
  | cons a rest ih =>
    intro acc hacc hs w hw c hc
    have hs' : ∀ c ∈ rest, c ≠ ' ' → Q c := fun c hc => hs c (List.mem_cons_of_mem _ hc)
    by_cases ha : a = ' '
    · subst ha
      cases acc with
      | nil =>
        rw [splitWordsAux_space_nil] at hw
        exact ih [] (by simp) hs' w hw c hc
      | cons b t =>
        rw [splitWordsAux_space_cons] at hw
        rcases List.mem_cons.mp hw with hw | hw
        · subst hw
          exact hacc c (List.mem_reverse.mp hc)
        · exact ih [] (by simp) hs' w hw c hc
    · rw [splitWordsAux_nonspace rest acc ha] at hw
      refine ih (a :: acc) ?_ hs' w hw c hc
      intro d hd
      rcases List.mem_cons.mp hd with hd | hd
      · subst hd
        exact ⟨hs d (List.mem_cons_self _ _) ha, ha⟩
      · exact hacc d hd

/-- Scanning a space-free word just accumulates it. -/
theorem splitWordsAux_append_word :
    ∀ (w rest acc : List Char), (∀ c ∈ w, c ≠ ' ') →
      splitWordsAux (w ++ rest) acc = splitWordsAux rest (w.reverse ++ acc) := by
  intro w
  induction w with
  | nil => intro rest acc _; simp
  | cons c w' ih =>
    intro rest acc hw
    have hc : c ≠ ' ' := hw c (List.mem_cons_self _ _)
    have h1 : (c :: w') ++ rest = c :: (w' ++ rest) := rfl
    rw [h1, splitWordsAux_nonspace (w' ++ rest) acc hc,
      ih rest (c :: acc) (fun d hd => hw d (List.mem_cons_of_mem _ hd))]
    simp

/-- Splitting inverts joining, for lists of nonempty space-free words. -/
theorem splitWords_joinWords :
    ∀ ws : List (List Char), (∀ w ∈ ws, w ≠ [] ∧ ∀ c ∈ w, c ≠ ' ') →
      splitWords (joinWords ws) = ws := by
  intro ws
  induction ws with
  | nil => intro _; rfl
  | cons w ws' ih =>
    intro hws
    obtain ⟨hw_ne, hw_chars⟩ := hws w (List.mem_cons_self _ _)
    obtain ⟨a, t, hrev⟩ : ∃ a t, w.reverse = a :: t := by
      cases hr : w.reverse with
      | nil => exact absurd (by simpa using hr) hw_ne
      | cons a t => exact ⟨a, t, rfl⟩
    cases ws' with
    | nil =>
      show splitWords w = [w]
      unfold splitWords
      have h0 : w = w ++ [] := by simp
      rw [h0, splitWordsAux_append_word w [] [] hw_chars]
      simp only [List.append_nil]
      rw [hrev, splitWordsAux_nil_cons, ← hrev]
      simp
    | cons w' ws'' =>
      have hjoin : joinWords (w :: w' :: ws'') = w ++ ' ' :: joinWords (w' :: ws'') := rfl
      rw [hjoin]
      unfold splitWords
      rw [splitWordsAux_append_word w (' ' :: joinWords (w' :: ws'')) [] hw_chars]
      simp only [List.append_nil]
      rw [hrev, splitWordsAux_space_cons, ← hrev]
      simp only [List.reverse_reverse]
      have hih := ih (fun u hu => hws u (List.mem_cons_of_mem _ hu))
      unfold splitWords at hih
      rw [hih]

/-- `joinWords` of a list headed by a nonempty word is nonempty. -/
theorem joinWords_ne_nil {w : List Char} (ws : List (List Char)) (hw : w ≠ []) :
    joinWords (w :: ws) ≠ [] := by
  cases ws with
  | nil => exact hw
  | cons w' ws' =>
    show w ++ ' ' :: joinWords (w' :: ws') ≠ []
    simp

theorem joinWords_head? {w : List Char} (ws : List (List Char)) (hw : w ≠ []) :
    (joinWords (w :: ws)).head? = w.head? := by
  cases ws with
  | nil => rfl
  | cons w' ws' =>
    show (w ++ ' ' :: joinWords (w' :: ws')).head? = w.head?
    cases w with
    | nil => exact absurd rfl hw
    | cons a t => rfl

/-- Every character of a join is a separator space or a word character. -/
theorem joinWords_mem :
    ∀ (ws : List (List Char)) (c : Char), c ∈ joinWords ws →
      c = ' ' ∨ ∃ w ∈ ws, c ∈ w := by
  intro ws
  induction ws with
  | nil => intro c hc; simp [joinWords] at hc
  | cons w ws' ih =>
    intro c hc
    cases ws' with
    | nil => exact Or.inr ⟨w, List.mem_singleton_self w, hc⟩
    | cons w' ws'' =>
      have : c ∈ w ++ ' ' :: joinWords (w' :: ws'') := hc
      rcases List.mem_append.mp this with h | h
      · exact Or.inr ⟨w, List.mem_cons_self _ _, h⟩
      · rcases List.mem_cons.mp h with h | h
        · exact Or.inl h
        · rcases ih c h with h' | ⟨u, hu, hcu⟩
          · exact Or.inl h'
          · exact Or.inr ⟨u, List.mem_cons_of_mem _ hu, hcu⟩

theorem mem_of_getLast?_eq {α : Type} {l : List α} {c : α}
    (h : l.getLast? = some c) : c ∈ l := by
  obtain ⟨hne, heq⟩ :=
    List.mem_getLast?_eq_getLast (show c ∈ l.getLast? from Option.mem_def.mpr h)
  rw [heq]
  exact List.getLast_mem hne

theorem mem_of_head?_eq {α : Type} {l : List α} {c : α}
    (h : l.head? = some c) : c ∈ l := by
  have := List.eq_cons_of_mem_head? (Option.mem_def.mpr h)
  rw [this]
  exact List.mem_cons_self _ _

/-- The last character of a join of nonempty space-free words is not a space. -/
theorem joinWords_getLast? :
    ∀ ws : List (List Char), (∀ w ∈ ws, w ≠ [] ∧ ∀ c ∈ w, c ≠ ' ') →
      ∀ c, (joinWords ws).getLast? = some c → c ≠ ' ' := by
  intro ws
  induction ws with
  | nil => intro _ c hc; simp [joinWords] at hc
  | cons w ws' ih =>
    intro hws c hc
    obtain ⟨hw_ne, hw_chars⟩ := hws w (List.mem_cons_self _ _)
    cases ws' with
    | nil =>
      have h0 : (joinWords [w]).getLast? = w.getLast? := rfl
      rw [h0] at hc
      exact hw_chars c (mem_of_getLast?_eq hc)
    | cons w' ws'' =>
      have hjoin : joinWords (w :: w' :: ws'') = w ++ ' ' :: joinWords (w' :: ws'') := rfl
      rw [hjoin, List.getLast?_append_cons] at hc
      have hne : joinWords (w' :: ws'') ≠ [] :=
        joinWords_ne_nil ws'' (hws w' (by simp)).1
      cases hj : joinWords (w' :: ws'') with
      | nil => exact absurd hj hne
      | cons b t =>
        rw [hj, List.getLast?_cons_cons] at hc
        apply ih (fun u hu => hws u (List.mem_cons_of_mem _ hu)) c
        rw [hj]
        exact hc

/-- Adjacent characters of a join of nonempty space-free words are
never both spaces (interior spaces are single). -/
theorem joinWords_chain :
    ∀ ws : List (List Char), (∀ w ∈ ws, w ≠ [] ∧ ∀ c ∈ w, c ≠ ' ') →
      List.Chain' (fun a b => ¬(a = ' ' ∧ b = ' ')) (joinWords ws) := by
  intro ws
  induction ws with
  | nil => simp [joinWords]
  | cons w ws' ih =>
    intro hws
    obtain ⟨hw_ne, hw_chars⟩ := hws w (List.mem_cons_self _ _)
    have hchain_w : ∀ u : List Char, (∀ c ∈ u, c ≠ ' ') →
        List.Chain' (fun a b => ¬(a = ' ' ∧ b = ' ')) u := by
      intro u hu
      induction u with
      | nil => simp
      | cons a t iht =>
        rw [List.chain'_cons']
        refine ⟨fun y _ hy => absurd hy.1 (hu a (List.mem_cons_self _ _)), ?_⟩
        exact iht (fun c hc => hu c (List.mem_cons_of_mem _ hc))
    cases ws' with
    | nil => exact hchain_w w hw_chars
    | cons w' ws'' =>
      have hjoin : joinWords (w :: w' :: ws'') = w ++ ' ' :: joinWords (w' :: ws'') := rfl
      rw [hjoin, List.chain'_append]
      refine ⟨hchain_w w hw_chars, ?_, ?_⟩
      · rw [List.chain'_cons']
        refine ⟨?_, ih (fun u hu => hws u (List.mem_cons_of_mem _ hu))⟩
        intro y hy hcon
        have hh := joinWords_head? ws'' (hws w' (by simp)).1
        rw [hh] at hy
        have : y ∈ w' := mem_of_head?_eq (Option.mem_def.mp hy)
        exact (hws w' (by simp)).2 y this hcon.2
      · intro x hx y hy hcon
        exact hw_chars x (mem_of_getLast?_eq (Option.mem_def.mp hx)) hcon.1

/-! ### Structure of normalizer output -/

/-- Output shape of `normalizarTexto`: nonempty words of uppercase
alphanumeric characters, joined by single spaces. -/
def NormWords (ws : List (List Char)) : Prop :=
  ∀ w ∈ ws, w ≠ [] ∧ ∀ c ∈ w, isUpperAlnum c = true

theorem NormWords.spaceFree {ws : List (List Char)} (h : NormWords ws) :
    ∀ w ∈ ws, w ≠ [] ∧ ∀ c ∈ w, c ≠ ' ' :=
  fun w hw => ⟨(h w hw).1, fun c hc => (isUpperAlnum_not_space ((h w hw).2 c hc)).2⟩

theorem map_id_of_mem {α : Type} {f : α → α} {l : List α}
    (h : ∀ c ∈ l, f c = c) : l.map f = l := by
  induction l with
  | nil => rfl
  | cons a t ih =>
    rw [List.map_cons, h a (List.mem_cons_self _ _),
      ih (fun c hc => h c (List.mem_cons_of_mem _ hc))]

theorem pyStrip_eq_self {l : List Char}
    (h1 : ∀ c, l.head? = some c → isSpaceB c = false)
    (h2 : ∀ c, l.getLast? = some c → isSpaceB c = false) : pyStrip l = l := by
  cases l with
  | nil => rfl
  | cons a l' =>
    have ha : isSpaceB a = false := h1 a rfl
    unfold pyStrip
    rw [List.dropWhile_cons_of_neg (by simp [ha])]
    cases hr : (a :: l').reverse with
    | nil => simp at hr
    | cons b t =>
      have hb : isSpaceB b = false := by
        apply h2
        rw [← List.head?_reverse, hr]
        rfl
      rw [List.dropWhile_cons_of_neg (by simp [hb]), ← hr, List.reverse_reverse]

/-- Every normalizer output is a join of normalized words. -/
theorem normalizarTexto_shape (s : List Char) :
    ∃ ws : List (List Char), NormWords ws ∧ normalizarTexto s = joinWords ws := by
  refine ⟨splitWords (((pyStrip s).map (fun c => pyUpperChar (deaccentChar c))).map
    (fun c => if isUpperAlnum c then c else ' ')), ?_, rfl⟩
  intro w hw
  refine ⟨splitWordsAux_ne_nil _ [] w hw, ?_⟩
  intro c hc
  have hchars := splitWordsAux_chars (fun c => isUpperAlnum c = true) _ [] (by simp)
    ?_ w hw c hc
  · exact hchars.1
  · intro d hd hne
    rcases List.mem_map.mp hd with ⟨x, _, hx⟩
    by_cases hxa : isUpperAlnum x = true
    · rw [if_pos hxa] at hx
      rw [← hx]
      exact hxa
    · rw [if_neg hxa] at hx
      exact absurd hx.symm hne

/-- The normalizer is the identity on its own outputs. -/
theorem normalizarTexto_joinWords {ws : List (List Char)} (h : NormWords ws) :
    normalizarTexto (joinWords ws) = joinWords ws := by
  have hsf := h.spaceFree
  have hmem : ∀ c ∈ joinWords ws, isUpperAlnum c = true ∨ c = ' ' := by
    intro c hc
    rcases joinWords_mem ws c hc with hc' | ⟨w, hw, hcw⟩
    · exact Or.inr hc'
    · exact Or.inl ((h w hw).2 c hcw)
  have hstrip : pyStrip (joinWords ws) = joinWords ws := by
    apply pyStrip_eq_self
    · intro c hc
      cases ws with
      | nil => simp [joinWords] at hc
      | cons w ws' =>
        rw [joinWords_head? ws' (h w (List.mem_cons_self _ _)).1] at hc
        exact (isUpperAlnum_not_space
          ((h w (List.mem_cons_self _ _)).2 c (mem_of_head?_eq hc))).1
    · intro c hc
      have hne := joinWords_getLast? ws hsf c hc
      rcases hmem c (mem_of_getLast?_eq hc) with ha | ha
      · exact (isUpperAlnum_not_space ha).1
      · exact absurd ha hne
  show joinWords (splitWords (((pyStrip (joinWords ws)).map
    (fun c => pyUpperChar (deaccentChar c))).map
    (fun c => if isUpperAlnum c then c else ' '))) = joinWords ws
  rw [hstrip]
  rw [map_id_of_mem (f := fun c => pyUpperChar (deaccentChar c)) ?hm1]
  case hm1 =>
    intro c hc
    rcases hmem c hc with ha | ha
    · exact normStep_id ha
    · rw [ha]; exact normStep_space
  rw [map_id_of_mem (f := fun c => if isUpperAlnum c then c else ' ') ?hm2]
  case hm2 =>
    intro c hc
    rcases hmem c hc with ha | rfl
    · simp [ha]
    · decide
  rw [splitWords_joinWords ws hsf]

/-- C8: text normalization is total and idempotent
(`normalize(normalize(s)) = normalize(s)` for every string, the
empty string normalizes to the empty string), and its output contains
only uppercase ASCII letters, digits and single interior separator
spaces, with no leading or trailing space. -/
theorem normalizarTexto_idempotent_and_shape :
    (∀ s : List Char, normalizarTexto (normalizarTexto s) = normalizarTexto s)
    ∧ normalizarTexto [] = []
    ∧ (∀ (s : List Char) (c : Char), c ∈ normalizarTexto s →
        isUpperAlnum c = true ∨ c = ' ')
    ∧ (∀ (s : List Char) (c : Char), (normalizarTexto s).head? = some c → c ≠ ' ')
    ∧ (∀ (s : List Char) (c : Char), (normalizarTexto s).getLast? = some c → c ≠ ' ')
    ∧ (∀ s : List Char,
        List.Chain' (fun a b => ¬(a = ' ' ∧ b = ' ')) (normalizarTexto s)) := by
  refine ⟨?_, rfl, ?_, ?_, ?_, ?_⟩
  · intro s
    obtain ⟨ws, hws, heq⟩ := normalizarTexto_shape s
    rw [heq]
    exact normalizarTexto_joinWords hws
  · intro s c hc
    obtain ⟨ws, hws, heq⟩ := normalizarTexto_shape s
    rw [heq] at hc
    rcases joinWords_mem ws c hc with h | ⟨w, hw, hcw⟩
    · exact Or.inr h
    · exact Or.inl ((hws w hw).2 c hcw)
  · intro s c hc
    obtain ⟨ws, hws, heq⟩ := normalizarTexto_shape s
    rw [heq] at hc
    cases ws with
    | nil => simp [joinWords] at hc
    | cons w ws' =>
      rw [joinWords_head? ws' (hws w (List.mem_cons_self _ _)).1] at hc
      exact (isUpperAlnum_not_space
        ((hws w (List.mem_cons_self _ _)).2 c (mem_of_head?_eq hc))).2
  · intro s c hc
    obtain ⟨ws, hws, heq⟩ := normalizarTexto_shape s
    rw [heq] at hc
    exact joinWords_getLast? ws hws.spaceFree c hc
  · intro s
    obtain ⟨ws, hws, heq⟩ := normalizarTexto_shape s
    rw [heq]
    exact joinWords_chain ws hws.spaceFree

/-- Witness for C8 at a concrete input. -/
theorem normalizarTexto_idempotent_and_shape_witness :
    normalizarTexto (normalizarTexto (" café!  12 ".toList))
      = normalizarTexto (" café!  12 ".toList)
    ∧ (isUpperAlnum 'C' = true ∨ 'C' = ' ') :=
  ⟨normalizarTexto_idempotent_and_shape.1 _,
   normalizarTexto_idempotent_and_shape.2.2.1 (" café!  12 ".toList) 'C' (by decide)⟩

/-! ### Brand registry and matcher (`fuzzy_matching.py`) -/

/-- The dedup step of `carregar_marcas_conhecidas` (lines 111-122):
keep the first name of each distinct nonempty normalized form,
stripped; `seen` is the set of normalized keys already taken. -/
def marcasUnicasAux : List (List Char) → List (List Char) → List (List Char)
  | _, [] => []
  | seen, m :: rest =>
    let key := normalizarTexto m
    if key = [] then marcasUnicasAux seen rest
    else if key ∈ seen then marcasUnicasAux seen rest
    else pyStrip m :: marcasUnicasAux (key :: seen) rest

def marcasUnicas (marcas : List (List Char)) : List (List Char) :=
  marcasUnicasAux [] marcas

/-- Embedding of the dataclass `MatchMarca`. -/
structure MatchMarca where
  marca : Option (List Char)
  score : Option ℚ
  metodo : String
  deriving DecidableEq

/-- Stable insertion into a list kept in descending order of
normalized-form length (Python's stable `sort(key=len(norm),
reverse=True)`): an element goes before the first entry whose
normalized form is no longer than its own. -/
def insertByLenDesc (x : List Char × List Char) :
    List (List Char × List Char) → List (List Char × List Char)
  | [] => [x]
  | y :: ys =>
    if y.2.length ≤ x.2.length then x :: y :: ys else y :: insertByLenDesc x ys

def sortByLenDesc : List (List Char × List Char) → List (List Char × List Char)
  | [] => []
  | x :: xs => insertByLenDesc x (sortByLenDesc xs)

/-- The normalized form of the excluded brand: `"OU"`. -/
def ouNorm : List Char := ['O', 'U']

/-- Embedding of the state built by `MarcaMatcher.__init__`. -/
structure MarcaMatcher where
  threshold : ℚ
  temOu : Bool
  prepped : List (List Char × List Char)
  choicesFuzzy : List (List Char × List Char)

def mkMatcher (marcas : List (List Char)) (threshold : ℚ := 88) : MarcaMatcher :=
  let temOu := marcas.any (fun m => normalizarTexto m = ouNorm)
  let base := marcas.filterMap (fun m =>
    let norm := normalizarTexto m
    if norm = [] then none
    else if norm = ouNorm then none
    else some (m, norm))
  let prepped := sortByLenDesc base
  let choices := prepped.filter (fun p => 4 ≤ p.2.length || p.2.any isDigitB)
  ⟨threshold, temOu, prepped, choices⟩

/-- The character class `[A-Za-zÀ-ÖØ-öø-ÿ0-9]` of the lookbehind and
lookahead in `_match_ou_especial`'s regex. -/
def isWordOu (c : Char) : Bool :=
  (65 ≤ c.toNat && c.toNat ≤ 90) || (97 ≤ c.toNat && c.toNat ≤ 122) ||
  (48 ≤ c.toNat && c.toNat ≤ 57) || (192 ≤ c.toNat && c.toNat ≤ 214) ||
  (216 ≤ c.toNat && c.toNat ≤ 246) || (248 ≤ c.toNat && c.toNat ≤ 255)

/-- Does the word-class predicate hold of an optional boundary
character (absent boundary = word-class fails)? -/
def boundWord : Option Char → Bool
  | none => false
  | some c => isWordOu c

/-- Left-to-right scan for the regex
`(?<![A-Za-zÀ-ÖØ-öø-ÿ0-9])O[uU](?![A-Za-zÀ-ÖØ-öø-ÿ0-9])`: `prev` is
the character just before the current suffix. -/
def ouScan (prev : Option Char) : List Char → Bool
  | [] => false
  | [_] => false
  | c :: d :: rest =>
    (c = 'O' && (d = 'u' || d = 'U') && !boundWord prev && !boundWord rest.head?)
    || ouScan (some c) (d :: rest)

/-- Embedding of `MarcaMatcher._match_ou_especial`. -/
def matchOuEspecial (m : MarcaMatcher) (tituloOriginal : List Char) : Bool :=
  m.temOu && !tituloOriginal.isEmpty && ouScan none tituloOriginal

/-- Python's `str.startswith` on character lists. -/
def startsWith : List Char → List Char → Bool
  | [], _ => true
  | _ :: _, [] => false
  | p :: ps, c :: cs => p = c && startsWith ps cs

/-- Python's substring containment `pat in s` on character lists. -/
def containsSub (pat : List Char) : List Char → Bool
  | [] => pat.isEmpty
  | c :: cs => startsWith pat (c :: cs) || containsSub pat cs

/-- Embedding of `MarcaMatcher._match_exato`: first entry of the
length-sorted registry whose padded normalized form occurs in the
padded normalized text. -/
def matchExato (m : MarcaMatcher) (texto : List Char) : Option (List Char) :=
  let tNorm := normalizarTexto texto
  if tNorm = [] then none
  else
    let padded := ' ' :: tNorm ++ [' ']
    (m.prepped.find? (fun p => containsSub (' ' :: p.2 ++ [' ']) padded)).map (·.1)

/-- `rapidfuzz.process.extractOne`: best-scoring choice (first on
ties), modelled for an arbitrary similarity scorer. -/
def extractOne (scorer : List Char → List Char → ℚ) (query : List Char) :
    List (List Char) → Option (List Char × ℚ)
  | [] => none
  | c :: cs =>
    some (cs.foldl (fun best c' =>
      if best.2 < scorer query c' then (c', scorer query c') else best)
      (c, scorer query c))

/-- Lookup in the dict comprehension `{norm: orig for orig, norm in
choices}`: later entries overwrite earlier ones, so the lookup finds
the last pair with the given normalized form. -/
def lookupLast (norm : List Char) :
    List (List Char × List Char) → Option (List Char)
  | [] => none
  | p :: ps =>
    match lookupLast norm ps with
    | some o => some o
    | none => if p.2 = norm then some p.1 else none

/-- Embedding of `MarcaMatcher._match_fuzzy`; `scorer? = none` models
the absent optional RapidFuzz dependency (`process is None`). -/
def matchFuzzy (scorer? : Option (List Char → List Char → ℚ))
    (m : MarcaMatcher) (texto : List Char) : Option (List Char × ℚ) :=
  match scorer? with
  | none => none
  | some scorer =>
    let tNorm := normalizarTexto texto
    if tNorm = [] then none
    else if m.choicesFuzzy = [] then none
    else
      match extractOne scorer tNorm (m.choicesFuzzy.map (·.2)) with
      | none => none
      | some (bestNorm, score) =>
        if m.threshold ≤ score then
          some ((lookupLast bestNorm m.choicesFuzzy).getD bestNorm, score)
        else none

/-- The shared tail of `MarcaMatcher.match`: fuzzy on the title, then
the no-match result. -/
def matchTituloFuzzy (scorer? : Option (List Char → List Char → ℚ))
    (m : MarcaMatcher) (titulo : List Char) : MatchMarca :=
  match matchFuzzy scorer? m titulo with
  | some (o, s) => ⟨some o, some s, "titulo_fuzzy"⟩
  | none => ⟨none, none, "sem_match"⟩

/-- Embedding of `MarcaMatcher.match` (precedence: OU special rule on
the title, exact on the title, then — when the raw hint is truthy —
OU special rule, exact and fuzzy on the hint, then fuzzy on the
title, else no match). -/
def matchMarca (scorer? : Option (List Char → List Char → ℚ))
    (m : MarcaMatcher) (titulo : List Char)
    (marcaRaw : Option (List Char) := none) : MatchMarca :=
  if matchOuEspecial m titulo then ⟨some ['O', 'u'], some 100, "titulo_exact_ou"⟩
  else match matchExato m titulo with
  | some o => ⟨some o, some 100, "titulo_exact"⟩
  | none =>
    let raw := marcaRaw.getD []
    if raw ≠ [] then
      if matchOuEspecial m raw then ⟨some ['O', 'u'], some 100, "raw_exact_ou"⟩
      else match matchExato m raw with
      | some o => ⟨some o, some 100, "raw_exact"⟩
      | none =>
        match matchFuzzy scorer? m raw with
        | some (o, s) => ⟨some o, some s, "raw_fuzzy"⟩
        | none => matchTituloFuzzy scorer? m titulo
    else matchTituloFuzzy scorer? m titulo

/-! ### C1: the case-sensitive OU special rule -/

/-- The character standing just before the scanned occurrence: the
last character of the part already consumed, or the scanner's `prev`
if nothing was consumed. -/
def lastBound (prev : Option Char) : List Char → Option Char
  | [] => prev
  | c :: cs => lastBound (some c) cs

theorem lastBound_cons (prev : Option Char) (c : Char) (cs : List Char) :
    lastBound prev (c :: cs) = lastBound (some c) cs := rfl

theorem ouScan_cons_cons (prev : Option Char) (c d : Char) (rest : List Char) :
    ouScan prev (c :: d :: rest) =
      ((c = 'O' && (d = 'u' || d = 'U') && !boundWord prev && !boundWord rest.head?)
        || ouScan (some c) (d :: rest)) := rfl

/-- Correctness of the scan: it finds exactly the standalone
occurrences of `O` followed by `u`/`U` whose neighbours are outside
the word character class. -/
theorem ouScan_iff :
    ∀ (l : List Char) (prev : Option Char),
      ouScan prev l = true ↔
        ∃ pre u post, pre ++ 'O' :: u :: post = l ∧ (u = 'u' ∨ u = 'U')
          ∧ boundWord (lastBound prev pre) = false
          ∧ boundWord post.head? = false := by
  intro l
  induction l with
  | nil =>
    intro prev
    simp only [ouScan, Bool.false_eq_true, false_iff]
    rintro ⟨pre, u, post, heq, -, -, -⟩
    have := congrArg List.length heq
    simp at this
  | cons c tail ih =>
    intro prev
    cases tail with
    | nil =>
      simp only [ouScan, Bool.false_eq_true, false_iff]
      rintro ⟨pre, u, post, heq, -, -, -⟩
      have := congrArg List.length heq
      simp at this
      omega
    | cons d rest =>
      rw [ouScan_cons_cons, Bool.or_eq_true]
      constructor
      · rintro (h | h)
        · simp only [Bool.and_eq_true, Bool.not_eq_true', Bool.or_eq_true,
            decide_eq_true_eq] at h
          obtain ⟨⟨⟨hc, hd⟩, hprev⟩, hrest⟩ := h
          exact ⟨[], d, rest, by simp [hc], hd, hprev, hrest⟩
        · obtain ⟨pre, u, post, heq, hu, hb1, hb2⟩ := (ih (some c)).mp h
          exact ⟨c :: pre, u, post, by rw [← heq]; rfl, hu,
            by rw [lastBound_cons]; exact hb1, hb2⟩
      · rintro ⟨pre, u, post, heq, hu, hb1, hb2⟩
        cases pre with
        | nil =>
          left
          rw [List.nil_append] at heq
          obtain ⟨h1, h2⟩ := List.cons.inj heq
          obtain ⟨h3, h4⟩ := List.cons.inj h2
          subst h1
          subst h3
          subst h4
          rcases hu with rfl | rfl <;> simp [hb1, hb2] <;> exact hb1
        | cons p pre' =>
          right
          rw [List.cons_append] at heq
          obtain ⟨h1, h2⟩ := List.cons.inj heq
          apply (ih (some c)).mpr
          refine ⟨pre', u, post, h2, hu, ?_, hb2⟩
          rw [lastBound_cons] at hb1
          rw [← h1]
          exact hb1

/-- If the OU special rule fires, the full match result is the
special-case decision. -/
theorem matchMarca_of_ou {m : MarcaMatcher} {titulo : List Char}
    (scorer? : Option (List Char → List Char → ℚ)) (raw : Option (List Char))
    (h : matchOuEspecial m titulo = true) :
    matchMarca scorer? m titulo raw = ⟨some ['O', 'u'], some 100, "titulo_exact_ou"⟩ := by
  simp [matchMarca, h]

/-- If the OU special rule does not fire on the title, no result of
the matcher carries the title special-case method tag. -/
theorem matchMarca_metodo_ne_ou {m : MarcaMatcher} {titulo : List Char}
    (scorer? : Option (List Char → List Char → ℚ)) (raw : Option (List Char))
    (h : matchOuEspecial m titulo = false) :
    (matchMarca scorer? m titulo raw).metodo ≠ "titulo_exact_ou" := by
  unfold matchMarca
  rw [h]
  simp only [Bool.false_eq_true, if_false]
  cases hE : matchExato m titulo with
  | some o => simp
  | none =>
    simp only []
    by_cases hraw : (raw.getD []) ≠ []
    · rw [if_pos hraw]
      cases hO2 : matchOuEspecial m (raw.getD []) with
      | true => simp
      | false =>
        simp only [Bool.false_eq_true, if_false]
        cases hE2 : matchExato m (raw.getD []) with
        | some o => simp
        | none =>
          cases hF : matchFuzzy scorer? m (raw.getD []) with
          | some p => cases p; simp
          | none =>
            simp only [matchTituloFuzzy]
            cases hF2 : matchFuzzy scorer? m titulo with
            | some p => cases p; simp
            | none => simp
    · rw [if_neg hraw]
      simp only [matchTituloFuzzy]
      cases hF2 : matchFuzzy scorer? m titulo with
      | some p => cases p; simp
      | none => simp

/-- C1: when the registry contains an entry normalizing to `"OU"`,
the matcher returns brand `"Ou"`, score 100 and the special-case
method exactly when the original un-normalized title contains `"Ou"`
or `"OU"` standalone (first letter a capital `O`, neighbours outside
the letter/digit class of the regex); a title without a capital `O`
can never match through this rule. -/
theorem matchMarca_ou_especial_iff
    (marcas : List (List Char)) (threshold : ℚ)
    (scorer? : Option (List Char → List Char → ℚ))
    (titulo : List Char) (raw : Option (List Char))
    (hreg : (marcas.any fun m => normalizarTexto m = ouNorm) = true) :
    (matchMarca scorer? (mkMatcher marcas threshold) titulo raw
        = ⟨some ['O', 'u'], some 100, "titulo_exact_ou"⟩
      ↔ ∃ pre u post, pre ++ 'O' :: u :: post = titulo ∧ (u = 'u' ∨ u = 'U')
          ∧ boundWord (lastBound none pre) = false
          ∧ boundWord post.head? = false)
    ∧ ('O' ∉ titulo →
        (matchMarca scorer? (mkMatcher marcas threshold) titulo raw).metodo
          ≠ "titulo_exact_ou") := by
  have htemOu : (mkMatcher marcas threshold).temOu = true := hreg
  constructor
  · constructor
    · intro hres
      cases hO : matchOuEspecial (mkMatcher marcas threshold) titulo with
      | false =>
        exact absurd (congrArg MatchMarca.metodo hres)
          (matchMarca_metodo_ne_ou scorer? raw hO)
      | true =>
        have hscan : ouScan none titulo = true := by
          unfold matchOuEspecial at hO
          simp only [Bool.and_eq_true] at hO
          exact hO.2
        exact (ouScan_iff titulo none).mp hscan
    · intro hdec
      apply matchMarca_of_ou
      have hscan : ouScan none titulo = true := (ouScan_iff titulo none).mpr hdec
      have hne : titulo.isEmpty = false := by
        obtain ⟨pre, u, post, heq, -, -, -⟩ := hdec
        cases titulo with
        | nil => exact absurd (congrArg List.length heq) (by simp)
        | cons a t => rfl
      unfold matchOuEspecial
      rw [htemOu, hne, hscan]
      rfl
  · intro hO
    apply matchMarca_metodo_ne_ou
    cases hOe : matchOuEspecial (mkMatcher marcas threshold) titulo with
    | false => rfl
    | true =>
      exfalso
      have hscan : ouScan none titulo = true := by
        unfold matchOuEspecial at hOe
        simp only [Bool.and_eq_true] at hOe
        exact hOe.2
      obtain ⟨pre, u, post, heq, -, -, -⟩ := (ouScan_iff titulo none).mp hscan
      exact hO (by rw [← heq]; simp)

/-- Witness for C1 on the spec's own example title. -/
theorem matchMarca_ou_especial_iff_witness :
    matchMarca none (mkMatcher ["Ou".toList] 88) "Sofá Ou Poltrona".toList none
      = ⟨some ['O', 'u'], some 100, "titulo_exact_ou"⟩ :=
  (matchMarca_ou_especial_iff ["Ou".toList] 88 none "Sofá Ou Poltrona".toList none
    (by decide)).1.mpr
    ⟨"Sofá ".toList, 'u', " Poltrona".toList, by decide, Or.inl rfl, by decide, by decide⟩

/-! ### C2: exact containment prefers the longest normalized form -/

/-- Ordering maintained by the registry sort: descending length of
the normalized form. -/
def lenDescRel (x y : List Char × List Char) : Prop :=
  y.2.length ≤ x.2.length

theorem insertByLenDesc_mem {x y : List Char × List Char}
    {l : List (List Char × List Char)} :
    y ∈ insertByLenDesc x l ↔ y = x ∨ y ∈ l := by
  induction l with
  | nil => simp [insertByLenDesc]
  | cons z zs ih =>
    by_cases h : z.2.length ≤ x.2.length
    · simp [insertByLenDesc, h]
    · simp only [insertByLenDesc, if_neg h, List.mem_cons, ih]
      tauto

theorem insertByLenDesc_pairwise {x : List Char × List Char}
    {l : List (List Char × List Char)} (h : l.Pairwise lenDescRel) :
    (insertByLenDesc x l).Pairwise lenDescRel := by
  induction l with
  | nil => simp [insertByLenDesc, List.pairwise_singleton]
  | cons z zs ih =>
    rcases List.pairwise_cons.mp h with ⟨hz, hzs⟩
    by_cases hc : z.2.length ≤ x.2.length
    · rw [insertByLenDesc, if_pos hc, List.pairwise_cons]
      refine ⟨?_, h⟩
      intro b hb
      rcases List.mem_cons.mp hb with rfl | hb
      · exact hc
      · exact le_trans (hz b hb) hc
    · rw [insertByLenDesc, if_neg hc, List.pairwise_cons]
      refine ⟨?_, ih hzs⟩
      intro b hb
      rcases insertByLenDesc_mem.mp hb with rfl | hb
      · exact le_of_not_le hc
      · exact hz b hb

theorem sortByLenDesc_mem {y : List Char × List Char}
    {l : List (List Char × List Char)} :
    y ∈ sortByLenDesc l ↔ y ∈ l := by
  induction l with
  | nil => simp [sortByLenDesc]
  | cons z zs ih =>
    rw [sortByLenDesc, insertByLenDesc_mem, ih, List.mem_cons]

theorem sortByLenDesc_pairwise (l : List (List Char × List Char)) :
    (sortByLenDesc l).Pairwise lenDescRel := by
  induction l with
  | nil => simp [sortByLenDesc]
  | cons z zs ih => exact insertByLenDesc_pairwise ih

/-- In a list sorted by descending normalized length, the first entry
satisfying a predicate has maximal length among the entries
satisfying it. -/
theorem find?_max_len :
    ∀ (l : List (List Char × List Char)) (p : List Char × List Char → Bool)
      (a : List Char × List Char),
      l.Pairwise lenDescRel → l.find? p = some a →
      ∀ b ∈ l, p b = true → b.2.length ≤ a.2.length := by
  intro l
  induction l with
  | nil => intro p a _ h; simp at h
  | cons x xs ih =>
    intro p a hsort h b hb hpb
    rcases List.pairwise_cons.mp hsort with ⟨hx, hxs⟩
    cases hpx : p x with
    | true =>
      rw [List.find?_cons_of_pos _ hpx] at h
      injection h with h
      subst h
      rcases List.mem_cons.mp hb with rfl | hb
      · exact le_refl _
      · exact hx b hb
    | false =>
      rw [List.find?_cons_of_neg _ (by simp [hpx])] at h
      rcases List.mem_cons.mp hb with rfl | hb2
      · rw [hpb] at hpx
        exact absurd hpx (by simp)
      · exact ih p a hxs h b hb2 hpb

theorem startsWith_length {p s : List Char} (h : startsWith p s = true) :
    p.length ≤ s.length := by
  induction p generalizing s with
  | nil => simp
  | cons a p' ih =>
    cases s with
    | nil => simp [startsWith] at h
    | cons c cs =>
      simp only [startsWith, Bool.and_eq_true] at h
      have := ih h.2
      simp only [List.length_cons]
      omega

theorem containsSub_length {pat s : List Char} (h : containsSub pat s = true) :
    pat.length ≤ s.length := by
  induction s with
  | nil =>
    simp only [containsSub, List.isEmpty_iff] at h
    simp [h]
  | cons c cs ih =>
    simp only [containsSub, Bool.or_eq_true] at h
    rcases h with h | h
    · exact startsWith_length h
    · exact le_trans (ih h) (by simp)

theorem mkMatcher_prepped (marcas : List (List Char)) (threshold : ℚ) :
    (mkMatcher marcas threshold).prepped = sortByLenDesc (marcas.filterMap (fun m =>
      let norm := normalizarTexto m
      if norm = [] then none
      else if norm = ouNorm then none
      else some (m, norm))) := rfl

theorem mkMatcher_prepped_norm_ne_nil (marcas : List (List Char)) (threshold : ℚ) :
    ∀ p ∈ (mkMatcher marcas threshold).prepped, p.2 ≠ [] := by
  intro p hp
  rw [mkMatcher_prepped] at hp
  rcases List.mem_filterMap.mp (sortByLenDesc_mem.mp hp) with ⟨m, _, hm⟩
  simp only at hm
  by_cases h1 : normalizarTexto m = []
  · rw [if_pos h1] at hm
    exact absurd hm (by simp)
  · rw [if_neg h1] at hm
    by_cases h2 : normalizarTexto m = ouNorm
    · rw [if_pos h2] at hm
      exact absurd hm (by simp)
    · rw [if_neg h2] at hm
      injection hm with hm
      rw [← hm]
      exact h1

/-- C2: whenever exact containment succeeds, the returned entry is a
registered one whose padded normalized form occurs in the padded
normalized title and whose normalized form is at least as long as
that of every other matching registered entry; containment succeeds
whenever any registered entry matches; and on the spec's example the
longer brand `"3M Scotch"` beats `"3M"` with score 100 and the exact
method. -/
theorem matchExato_longest :
    (∀ (marcas : List (List Char)) (threshold : ℚ) (texto orig : List Char),
      matchExato (mkMatcher marcas threshold) texto = some orig →
      ∃ norm, (orig, norm) ∈ (mkMatcher marcas threshold).prepped
        ∧ containsSub (' ' :: norm ++ [' '])
            (' ' :: normalizarTexto texto ++ [' ']) = true
        ∧ ∀ p ∈ (mkMatcher marcas threshold).prepped,
            containsSub (' ' :: p.2 ++ [' '])
              (' ' :: normalizarTexto texto ++ [' ']) = true →
            p.2.length ≤ norm.length)
    ∧ (∀ (marcas : List (List Char)) (threshold : ℚ) (texto : List Char),
        (∃ p ∈ (mkMatcher marcas threshold).prepped,
          containsSub (' ' :: p.2 ++ [' '])
            (' ' :: normalizarTexto texto ++ [' ']) = true) →
        ∃ orig, matchExato (mkMatcher marcas threshold) texto = some orig)
    ∧ matchMarca none (mkMatcher ["3M".toList, "3M Scotch".toList] 88)
        "Fita 3M Scotch Original".toList none
        = ⟨some "3M Scotch".toList, some 100, "titulo_exact"⟩ := by
  refine ⟨?_, ?_, by decide⟩
  · intro marcas threshold texto orig h
    unfold matchExato at h
    by_cases ht : normalizarTexto texto = []
    · rw [if_pos ht] at h
      exact absurd h (by simp)
    · rw [if_neg ht] at h
      rcases Option.map_eq_some'.mp h with ⟨pr, hfind, hpr⟩
      refine ⟨pr.2, ?_, ?_, ?_⟩
      · have := List.mem_of_find?_eq_some hfind
        rw [← hpr]
        exact this
      · simpa using List.find?_some hfind
      · intro p hp hcp
        have hsort : (mkMatcher marcas threshold).prepped.Pairwise lenDescRel := by
          rw [mkMatcher_prepped]
          exact sortByLenDesc_pairwise _
        exact find?_max_len _ _ _ hsort hfind p hp hcp
  · rintro marcas threshold texto ⟨p, hp, hcp⟩
    have ht : normalizarTexto texto ≠ [] := by
      intro h0
      have hlen := containsSub_length hcp
      rw [h0] at hlen
      simp at hlen
      have := mkMatcher_prepped_norm_ne_nil marcas threshold p hp
      cases hp2 : p.2 with
      | nil => exact this hp2
      | cons a t => rw [hp2] at hlen; simp at hlen
    have hsome : ((mkMatcher marcas threshold).prepped.find? (fun q =>
        containsSub (' ' :: q.2 ++ [' ']) (' ' :: normalizarTexto texto ++ [' ']))).isSome := by
      rw [List.find?_isSome]
      exact ⟨p, hp, hcp⟩
    rcases Option.isSome_iff_exists.mp hsome with ⟨pr, hpr⟩
    refine ⟨pr.1, ?_⟩
    show (if normalizarTexto texto = [] then none
      else Option.map (fun x => x.1) ((mkMatcher marcas threshold).prepped.find? (fun q =>
        containsSub (' ' :: q.2 ++ [' ']) (' ' :: normalizarTexto texto ++ [' ']))))
      = some pr.1
    rw [if_neg ht, hpr]
    rfl

/-- Witness for C2 at the spec's example input. -/
theorem matchExato_longest_witness :
    ∃ norm, ("3M Scotch".toList, norm)
        ∈ (mkMatcher ["3M".toList, "3M Scotch".toList] 88).prepped
      ∧ containsSub (' ' :: norm ++ [' '])
          (' ' :: normalizarTexto "Fita 3M Scotch Original".toList ++ [' ']) = true
      ∧ ∀ p ∈ (mkMatcher ["3M".toList, "3M Scotch".toList] 88).prepped,
          containsSub (' ' :: p.2 ++ [' '])
            (' ' :: normalizarTexto "Fita 3M Scotch Original".toList ++ [' ']) = true →
          p.2.length ≤ norm.length :=
  matchExato_longest.1 ["3M".toList, "3M Scotch".toList] 88
    "Fita 3M Scotch Original".toList "3M Scotch".toList (by decide)

/-! ### C3: registry collision handling -/

theorem marcasUnicasAux_mem :
    ∀ (ms seen : List (List Char)) (m' : List Char),
      m' ∈ marcasUnicasAux seen ms ↔
        ∃ pre m post, pre ++ m :: post = ms ∧ m' = pyStrip m
          ∧ normalizarTexto m ≠ [] ∧ normalizarTexto m ∉ seen
          ∧ normalizarTexto m ∉ pre.map normalizarTexto := by
  intro ms
  induction ms with
  | nil =>
    intro seen m'
    simp only [marcasUnicasAux, List.not_mem_nil, false_iff]
    rintro ⟨pre, m, post, heq, -, -, -, -⟩
    have := congrArg List.length heq
    simp at this
  | cons a rest ih =>
    intro seen m'
    by_cases hk1 : normalizarTexto a = []
    · rw [show marcasUnicasAux seen (a :: rest) = marcasUnicasAux seen rest by
        simp [marcasUnicasAux, hk1]]
      rw [ih seen m']
      constructor
      · rintro ⟨pre, m, post, heq, hstrip, hne, hseen, hpre⟩
        refine ⟨a :: pre, m, post, by rw [← heq]; rfl, hstrip, hne, hseen, ?_⟩
        simp only [List.map_cons, List.mem_cons, not_or]
        exact ⟨fun hc => hne (hc.trans hk1), hpre⟩
      · rintro ⟨pre, m, post, heq, hstrip, hne, hseen, hpre⟩
        cases pre with
        | nil =>
          rw [List.nil_append] at heq
          obtain ⟨h1, -⟩ := List.cons.inj heq
          exact absurd (h1 ▸ hk1) hne
        | cons p pre' =>
          rw [List.cons_append] at heq
          obtain ⟨h1, h2⟩ := List.cons.inj heq
          refine ⟨pre', m, post, h2, hstrip, hne, hseen, ?_⟩
          intro hc
          exact hpre (by simp only [List.map_cons, List.mem_cons]; exact Or.inr hc)
    · by_cases hk2 : normalizarTexto a ∈ seen
      · rw [show marcasUnicasAux seen (a :: rest) = marcasUnicasAux seen rest by
          simp [marcasUnicasAux, hk1, hk2]]
        rw [ih seen m']
        constructor
        · rintro ⟨pre, m, post, heq, hstrip, hne, hseen, hpre⟩
          refine ⟨a :: pre, m, post, by rw [← heq]; rfl, hstrip, hne, hseen, ?_⟩
          simp only [List.map_cons, List.mem_cons, not_or]
          exact ⟨fun hc => hseen (hc ▸ hk2), hpre⟩
        · rintro ⟨pre, m, post, heq, hstrip, hne, hseen, hpre⟩
          cases pre with
          | nil =>
            rw [List.nil_append] at heq
            obtain ⟨h1, -⟩ := List.cons.inj heq
            exact absurd (h1 ▸ hk2) hseen
          | cons p pre' =>
            rw [List.cons_append] at heq
            obtain ⟨h1, h2⟩ := List.cons.inj heq
            refine ⟨pre', m, post, h2, hstrip, hne, hseen, ?_⟩
            intro hc
            exact hpre (by simp only [List.map_cons, List.mem_cons]; exact Or.inr hc)
      · rw [show marcasUnicasAux seen (a :: rest)
            = pyStrip a :: marcasUnicasAux (normalizarTexto a :: seen) rest by
          simp [marcasUnicasAux, hk1, hk2]]
        rw [List.mem_cons, ih (normalizarTexto a :: seen) m']
        constructor
        · rintro (rfl | ⟨pre, m, post, heq, hstrip, hne, hseen, hpre⟩)
          · exact ⟨[], a, rest, rfl, rfl, hk1, hk2, by simp⟩
          · simp only [List.mem_cons, not_or] at hseen
            refine ⟨a :: pre, m, post, by rw [← heq]; rfl, hstrip, hne, hseen.2, ?_⟩
            simp only [List.map_cons, List.mem_cons, not_or]
            exact ⟨hseen.1, hpre⟩
        · rintro ⟨pre, m, post, heq, hstrip, hne, hseen, hpre⟩
          cases pre with
          | nil =>
            rw [List.nil_append] at heq
            obtain ⟨h1, -⟩ := List.cons.inj heq
            subst h1
            exact Or.inl hstrip
          | cons p pre' =>
            rw [List.cons_append] at heq
            obtain ⟨h1, h2⟩ := List.cons.inj heq
            subst h1
            right
            simp only [List.map_cons, List.mem_cons, not_or] at hpre
            refine ⟨pre', m, post, h2, hstrip, hne, ?_, hpre.2⟩
            simp only [List.mem_cons, not_or]
            exact ⟨hpre.1, hseen⟩

/-- Counterexample to C3: the code keeps the *first-seen* name of a
collision class, with no preference for names containing a space
(`"Euro-Home"` and `"Euro Home"` normalize identically and the
space-free first one wins), and the claim's own example pair
`["EuroHome", "Euro Home"]` does not even collide (both survive). -/
theorem marcasUnicas_counterexample :
    normalizarTexto "Euro-Home".toList = normalizarTexto "Euro Home".toList
    ∧ "Euro-Home".toList ≠ "Euro Home".toList
    ∧ marcasUnicas ["Euro-Home".toList, "Euro Home".toList] = ["Euro-Home".toList]
    ∧ marcasUnicas ["EuroHome".toList, "Euro Home".toList]
        = ["EuroHome".toList, "Euro Home".toList]
    ∧ matchMarca none (mkMatcher ["Euro-Home".toList, "Euro Home".toList] 88)
        "euro home kit".toList none
        = ⟨some "Euro-Home".toList, some 100, "titulo_exact"⟩ := by
  refine ⟨by decide, by decide, by decide, by decide, by decide⟩

/-- C3 (amended): the registry keeps, for each distinct nonempty
normalized form, exactly the stripped first-seen input name with that
form — a member of the loaded list is precisely a stripped input name
whose normalized form is nonempty and not shared with any earlier
input name; `["EuroHome", "Euro Home"]` normalize differently, so
both are kept. -/
theorem marcasUnicas_first_seen :
    (∀ (ms : List (List Char)) (m' : List Char),
      m' ∈ marcasUnicas ms ↔
        ∃ pre m post, pre ++ m :: post = ms ∧ m' = pyStrip m
          ∧ normalizarTexto m ≠ []
          ∧ normalizarTexto m ∉ pre.map normalizarTexto)
    ∧ marcasUnicas ["EuroHome".toList, "Euro Home".toList]
        = ["EuroHome".toList, "Euro Home".toList] := by
  refine ⟨?_, by decide⟩
  intro ms m'
  rw [show marcasUnicas ms = marcasUnicasAux [] ms from rfl, marcasUnicasAux_mem]
  constructor
  · rintro ⟨pre, m, post, heq, hstrip, hne, -, hpre⟩
    exact ⟨pre, m, post, heq, hstrip, hne, hpre⟩
  · rintro ⟨pre, m, post, heq, hstrip, hne, hpre⟩
    exact ⟨pre, m, post, heq, hstrip, hne, by simp, hpre⟩

/-! ### C4: the short-text guard at the fuzzy stage -/

/-- A similarity scorer valuing the pair (`"NIK"`, `"NIKE"`) at 90,
as a weighted partial-ratio scorer does for a prefix of this kind. -/
def nikScorer (q c : List Char) : ℚ :=
  if q = "NIK".toList ∧ c = "NIKE".toList then 90 else 0

/-- Counterexample to C4: there is no minimum length on the *input*
text at the fuzzy stage — a title whose normalized form has only 3
characters is still fuzzy-matched (the `< 4` filter in the source
applies to the candidate brand pool, not to the input). -/
theorem matchFuzzy_short_input_counterexample :
    (normalizarTexto "Nik".toList).length = 3
    ∧ matchMarca (some nikScorer) (mkMatcher ["NIKE".toList] 88) "Nik".toList none
        = ⟨some "NIKE".toList, some 90, "titulo_fuzzy"⟩ := by
  refine ⟨by decide, by decide⟩

theorem extractOne_foldl_mem (scorer : List Char → List Char → ℚ)
    (q : List Char) :
    ∀ (cs : List (List Char)) (init : List Char × ℚ),
      (cs.foldl (fun best c' =>
        if best.2 < scorer q c' then (c', scorer q c') else best) init).1 = init.1 ∨
      (cs.foldl (fun best c' =>
        if best.2 < scorer q c' then (c', scorer q c') else best) init).1 ∈ cs := by
  intro cs
  induction cs with
  | nil => intro init; exact Or.inl rfl
  | cons c' cs' ih =>
    intro init
    rw [List.foldl_cons]
    by_cases hc : init.2 < scorer q c'
    · rw [if_pos hc]
      rcases ih (c', scorer q c') with h | h
      · right
        rw [h]
        exact List.mem_cons_self _ _
      · exact Or.inr (List.mem_cons_of_mem _ h)
    · rw [if_neg hc]
      rcases ih init with h | h
      · exact Or.inl h
      · exact Or.inr (List.mem_cons_of_mem _ h)

theorem extractOne_mem {scorer : List Char → List Char → ℚ}
    {q : List Char} {choices : List (List Char)} {c : List Char} {s : ℚ}
    (h : extractOne scorer q choices = some (c, s)) : c ∈ choices := by
  cases choices with
  | nil => simp [extractOne] at h
  | cons c0 cs =>
    simp only [extractOne, Option.some.injEq] at h
    have hfold := extractOne_foldl_mem scorer q cs (c0, scorer q c0)
    rw [h] at hfold
    simp only at hfold
    rcases hfold with rfl | h'
    · exact List.mem_cons_self _ _
    · exact List.mem_cons_of_mem _ h'

theorem lookupLast_mem {norm : List Char} {o : List Char} :
    ∀ {l : List (List Char × List Char)},
      lookupLast norm l = some o → (o, norm) ∈ l := by
  intro l
  induction l with
  | nil => intro h; simp [lookupLast] at h
  | cons p ps ih =>
    intro h
    simp only [lookupLast] at h
    cases hps : lookupLast norm ps with
    | some o' =>
      rw [hps] at h
      injection h with h
      subst h
      exact List.mem_cons_of_mem _ (ih hps)
    | none =>
      rw [hps] at h
      by_cases hp : p.2 = norm
      · rw [if_pos hp] at h
        injection h with h
        subst h
        subst hp
        exact List.mem_cons_self _ _
      · rw [if_neg hp] at h
        exact absurd h (by simp)

theorem lookupLast_none {norm : List Char} :
    ∀ {l : List (List Char × List Char)},
      lookupLast norm l = none → ∀ p ∈ l, p.2 ≠ norm := by
  intro l
  induction l with
  | nil => intro _ p hp; simp at hp
  | cons q ps ih =>
    intro h p hp
    simp only [lookupLast] at h
    cases hps : lookupLast norm ps with
    | some o' => rw [hps] at h; exact absurd h (by simp)
    | none =>
      rw [hps] at h
      by_cases hq : q.2 = norm
      · rw [if_pos hq] at h
        exact absurd h (by simp)
      · rcases List.mem_cons.mp hp with rfl | hp'
        · exact hq
        · exact ih hps p hp'

theorem mkMatcher_choicesFuzzy (marcas : List (List Char)) (threshold : ℚ) :
    (mkMatcher marcas threshold).choicesFuzzy
      = (mkMatcher marcas threshold).prepped.filter
          (fun p => 4 ≤ p.2.length || p.2.any isDigitB) := rfl

/-- C4 (amended): the length-4 guard of the fuzzy stage constrains
the *candidate pool*, not the input text: every fuzzy candidate has a
normalized form at least 4 characters long or containing a digit, and
every fuzzy match returns a candidate-pool brand at or above the
threshold; no guard rejects a short input text (see the
counterexample, where a 3-character input is matched). -/
theorem matchFuzzy_pool_guard :
    (∀ (marcas : List (List Char)) (threshold : ℚ)
      (p : List Char × List Char),
      p ∈ (mkMatcher marcas threshold).choicesFuzzy →
      4 ≤ p.2.length ∨ p.2.any isDigitB = true)
    ∧ (∀ (scorer? : Option (List Char → List Char → ℚ)) (m : MarcaMatcher)
        (texto o : List Char) (s : ℚ),
        matchFuzzy scorer? m texto = some (o, s) →
        ∃ norm, (o, norm) ∈ m.choicesFuzzy ∧ m.threshold ≤ s) := by
  constructor
  · intro marcas threshold p hp
    rw [mkMatcher_choicesFuzzy] at hp
    have := (List.mem_filter.mp hp).2
    simp only [Bool.or_eq_true, decide_eq_true_eq] at this
    exact this
  · intro scorer? m texto o s h
    cases scorer? with
    | none => exact absurd h (by simp [matchFuzzy])
    | some scorer =>
      have hEq : matchFuzzy (some scorer) m texto =
          (if normalizarTexto texto = [] then none
           else if m.choicesFuzzy = [] then none
           else match extractOne scorer (normalizarTexto texto)
               (m.choicesFuzzy.map (·.2)) with
             | none => none
             | some (bestNorm, score) =>
               if m.threshold ≤ score then
                 some ((lookupLast bestNorm m.choicesFuzzy).getD bestNorm, score)
               else none) := rfl
      rw [hEq] at h
      by_cases h1 : normalizarTexto texto = []
      · rw [if_pos h1] at h
        exact absurd h (by simp)
      · rw [if_neg h1] at h
        by_cases h2 : m.choicesFuzzy = []
        · rw [if_pos h2] at h
          exact absurd h (by simp)
        · rw [if_neg h2] at h
          cases hE : extractOne scorer (normalizarTexto texto)
              (m.choicesFuzzy.map (·.2)) with
          | none => rw [hE] at h; exact absurd h (by simp)
          | some pr =>
            rw [hE] at h
            obtain ⟨bestNorm, score⟩ := pr
            have h' : (if m.threshold ≤ score then
                some ((lookupLast bestNorm m.choicesFuzzy).getD bestNorm, score)
                else none) = some (o, s) := h
            by_cases h3 : m.threshold ≤ score
            · rw [if_pos h3] at h'
              injection h' with h'
              obtain ⟨ho, hs⟩ := Prod.mk.inj h'
              subst hs
              refine ⟨bestNorm, ?_, h3⟩
              have hmem : bestNorm ∈ m.choicesFuzzy.map (·.2) := extractOne_mem hE
              cases hL : lookupLast bestNorm m.choicesFuzzy with
              | some o' =>
                rw [hL] at ho
                simp only [Option.getD_some] at ho
                subst ho
                exact lookupLast_mem hL
              | none =>
                exfalso
                rcases List.mem_map.mp hmem with ⟨p, hp, hp2⟩
                exact lookupLast_none hL p hp hp2
            · rw [if_neg h3] at h'
              exact absurd h' (by simp)

/-- Witness for the amended C4 at a concrete fuzzy match. -/
theorem matchFuzzy_pool_guard_witness :
    ∃ norm, ("NIKE".toList, norm)
        ∈ (mkMatcher ["NIKE".toList] 88).choicesFuzzy
      ∧ (mkMatcher ["NIKE".toList] 88).threshold ≤ 90 :=
  matchFuzzy_pool_guard.2 (some nikScorer) (mkMatcher ["NIKE".toList] 88)
    "Nik".toList "NIKE".toList 90 (by decide)

/-! ### C5: no distinct tag when fuzzy is unavailable -/

/-- Counterexample to C5: with the fuzzy dependency absent the miss
method is `"sem_match"` — exactly the same tag as an ordinary miss
with fuzzy available — not a distinct `"fuzzy-unavailable"` tag. -/
theorem fuzzy_unavailable_tag_counterexample :
    (matchMarca none (mkMatcher ["NIKE".toList] 88) "xyz".toList none).metodo
      = "sem_match"
    ∧ (matchMarca (some (fun _ _ => 0)) (mkMatcher ["NIKE".toList] 88)
        "xyz".toList none).metodo = "sem_match" := by
  refine ⟨by decide, by decide⟩

/-- C5 (amended): when the fuzzy dependency is unavailable and every
deterministic step fails, the matcher returns the ordinary no-match
decision with method `"sem_match"`; the code has no separate
fuzzy-unavailable tag. -/
theorem matchMarca_unavailable_sem_match
    (m : MarcaMatcher) (titulo : List Char) (raw : Option (List Char))
    (h1 : matchOuEspecial m titulo = false)
    (h2 : matchExato m titulo = none)
    (h3 : matchOuEspecial m (raw.getD []) = false)
    (h4 : matchExato m (raw.getD []) = none) :
    matchMarca none m titulo raw = ⟨none, none, "sem_match"⟩ := by
  unfold matchMarca
  rw [h1]
  simp only [Bool.false_eq_true, if_false, h2]
  by_cases hraw : (raw.getD []) ≠ []
  · rw [if_pos hraw, h3]
    simp only [Bool.false_eq_true, if_false, h4]
    show matchTituloFuzzy none m titulo = ⟨none, none, "sem_match"⟩
    rfl
  · rw [if_neg hraw]
    rfl

/-- Witness for the amended C5. -/
theorem matchMarca_unavailable_sem_match_witness :
    matchMarca none (mkMatcher ["NIKE".toList] 88) "xyz".toList none
      = ⟨none, none, "sem_match"⟩ :=
  matchMarca_unavailable_sem_match (mkMatcher ["NIKE".toList] 88)
    "xyz".toList none (by decide) (by decide) (by decide) (by decide)

/-! ### C6: price-outlier detection (`_adicionar_metricas_relevancia`,
steps 1-2 of `main_amazon.py`) -/

attribute [local semireducible] Rat.add Rat.mul Rat.sub Rat.inv

/-- The numeric prices of the batch (`df["preco"].dropna()`). -/
def validPrices (precos : List (Option ℚ)) : List ℚ :=
  precos.filterMap id

def insertAscQ (x : ℚ) : List ℚ → List ℚ
  | [] => [x]
  | y :: ys => if x ≤ y then x :: y :: ys else y :: insertAscQ x ys

def sortAscQ : List ℚ → List ℚ
  | [] => []
  | x :: xs => insertAscQ x (sortAscQ xs)

/-- pandas `Series.quantile(q)` with the default linear
interpolation, on a sorted list: position `h = q·(n−1)`,
interpolating between the neighbouring order statistics. -/
def quantileLin (s : List ℚ) (q : ℚ) : ℚ :=
  let h : ℚ := q * ((s.length : ℚ) - 1)
  let i : ℕ := h.floor.toNat
  let lo := s.getD i 0
  let hi := s.getD (i + 1) lo
  lo + (h - (h.floor : ℚ)) * (hi - lo)

def q1Of (precos : List (Option ℚ)) : ℚ :=
  quantileLin (sortAscQ (validPrices precos)) (1 / 4)

def q3Of (precos : List (Option ℚ)) : ℚ :=
  quantileLin (sortAscQ (validPrices precos)) (3 / 4)

def iqrOf (precos : List (Option ℚ)) : ℚ :=
  q3Of precos - q1Of precos

/-- Embedding of the outlier pass: a default-false flag per listing,
replaced — only when at least 4 numeric prices exist and the IQR is
positive — by the 1.5·IQR fence test (missing prices never flag). -/
def precoOutlier (precos : List (Option ℚ)) : List Bool :=
  if 4 ≤ (validPrices precos).length ∧ 0 < iqrOf precos then
    precos.map (fun p? =>
      match p? with
      | some p => decide (p < q1Of precos - 3 / 2 * iqrOf precos
          ∨ q3Of precos + 3 / 2 * iqrOf precos < p)
      | none => false)
  else precos.map (fun _ => false)

/-- C6: a listing is flagged as price outlier exactly when at least 4
numeric prices exist, the interquartile range is strictly positive,
and the listing's price lies below `Q1 − 1.5·IQR` or above
`Q3 + 1.5·IQR`; with fewer than 4 numeric prices every flag is false;
and on `[10, 10, 11, 9, 10, 1000]` exactly the 1000 entry is
flagged. -/
theorem precoOutlier_iff :
    (∀ (precos : List (Option ℚ)) (i : ℕ),
      (precoOutlier precos).getD i false = true ↔
        (4 ≤ (validPrices precos).length ∧ 0 < iqrOf precos
          ∧ ∃ p, precos.getD i none = some p
            ∧ (p < q1Of precos - 3 / 2 * iqrOf precos
              ∨ q3Of precos + 3 / 2 * iqrOf precos < p)))
    ∧ precoOutlier [some 10, some 10, some 11, some 9, some 10, some 1000]
        = [false, false, false, false, false, true]
    ∧ (∀ p1 p2 p3 : Option ℚ, precoOutlier [p1, p2, p3] = [false, false, false]) := by
  refine ⟨?_, by decide, ?_⟩
  · intro precos i
    unfold precoOutlier
    by_cases hcond : 4 ≤ (validPrices precos).length ∧ 0 < iqrOf precos
    · rw [if_pos hcond]
      by_cases hi : i < precos.length
      · rw [List.getD_eq_getElem?_getD, List.getElem?_map,
          List.getElem?_eq_getElem hi]
        rw [List.getD_eq_getElem?_getD, List.getElem?_eq_getElem hi]
        cases hp : precos[i] with
        | none => simp [hcond]
        | some p =>
          simp only [Option.map_some', Option.getD_some, decide_eq_true_eq]
          constructor
          · intro h
            exact ⟨hcond.1, hcond.2, p, rfl, h⟩
          · rintro ⟨-, -, p', hp', h⟩
            injection hp' with hp'
            subst hp'
            exact h
      · rw [List.getD_eq_getElem?_getD, List.getElem?_eq_none (by
          rw [List.length_map]; omega)]
        rw [List.getD_eq_getElem?_getD, List.getElem?_eq_none (by omega)]
        simp
    · rw [if_neg hcond]
      by_cases hi : i < precos.length
      · rw [List.getD_eq_getElem?_getD, List.getElem?_map,
          List.getElem?_eq_getElem hi]
        simp only [Option.map_some', Option.getD_some, Bool.false_eq_true,
          false_iff, not_and]
        intro h1 h2
        exact absurd ⟨h1, h2⟩ hcond
      · rw [List.getD_eq_getElem?_getD, List.getElem?_eq_none (by
          rw [List.length_map]; omega)]
        simp only [Option.getD_none, Bool.false_eq_true, false_iff, not_and]
        intro h1 h2
        exact absurd ⟨h1, h2⟩ hcond
  · intro p1 p2 p3
    have hlen : (validPrices [p1, p2, p3]).length ≤ 3 := by
      have := List.length_filterMap_le id [p1, p2, p3]
      simpa [validPrices] using this
    unfold precoOutlier
    rw [if_neg (by push_neg; intro h; omega)]
    rfl

/-- Witness for C6: the general characterization applied at the
1000-price entry of the spec's example list. -/
theorem precoOutlier_iff_witness :
    (precoOutlier [some 10, some 10, some 11, some 9, some 10, some 1000]).getD 5 false
      = true :=
  ((precoOutlier_iff.1 [some 10, some 10, some 11, some 9, some 10, some 1000] 5).mpr
    (by refine ⟨by decide, by decide, 1000, by decide, ?_⟩; right; decide))

/-! ### C7: quality sub-score (step 9 of
`_adicionar_metricas_relevancia`) -/

/-- Embedding of `_calc_f_reviews`: the review-volume saturation
component; the guard models the `try/except` around `math.log`
(a domain error yields 0, never a failure). -/
noncomputable def fReviews (rev : ℚ) : ℝ :=
  if 0 < 1 + (rev : ℝ) then
    min 1 (Real.log (1 + (rev : ℝ)) / Real.log (1 + 100))
  else 0

/-- Embedding of the quality-score column: defined only when both
rating and review count are known, the rating is positive and the
review count nonnegative; the product is clipped above at 1. -/
noncomputable def scoreQualidade (rating? reviews? : Option ℚ) : Option ℝ :=
  match rating?, reviews? with
  | some r, some v =>
    if 0 < r ∧ 0 ≤ v then some (min ((r : ℝ) / 5 * fReviews v) 1) else none
  | _, _ => none

/-- C7: for known rating > 0 and review count ≥ 0 the quality score
equals `clamp((rating/5) · min(1, ln(1+reviews)/ln(101)), 0, 1)`;
zero reviews give quality 0 regardless of rating; a log-domain error
yields review component 0 rather than an exception; and the score is
undefined when rating or review count is unknown or out of range. -/
theorem scoreQualidade_spec :
    (∀ r v : ℚ, 0 < r → 0 ≤ v →
      scoreQualidade (some r) (some v)
        = some (max 0 (min 1
            ((r : ℝ) / 5 * min 1 (Real.log (1 + (v : ℝ)) / Real.log 101)))))
    ∧ (∀ r : ℚ, 0 < r → scoreQualidade (some r) (some 0) = some 0)
    ∧ (∀ r v : ℚ, ¬(0 < r ∧ 0 ≤ v) → scoreQualidade (some r) (some v) = none)
    ∧ (∀ v?, scoreQualidade none v? = none)
    ∧ (∀ r?, scoreQualidade r? none = none)
    ∧ (∀ v : ℚ, 1 + (v : ℝ) ≤ 0 → fReviews v = 0) := by
  have hlog101 : (0 : ℝ) ≤ Real.log 101 := Real.log_nonneg (by norm_num)
  refine ⟨?_, ?_, ?_, ?_, ?_, ?_⟩
  · intro r v hr hv
    have hr' : (0 : ℝ) ≤ (r : ℝ) := by
      have : (0 : ℚ) ≤ r := le_of_lt hr
      exact_mod_cast this
    have hv' : (0 : ℝ) ≤ (v : ℝ) := by exact_mod_cast hv
    have h1v : 0 < 1 + (v : ℝ) := by linarith
    show (if 0 < r ∧ 0 ≤ v then some (min ((r : ℝ) / 5 * fReviews v) 1) else none) = _
    rw [if_pos ⟨hr, hv⟩]
    unfold fReviews
    rw [if_pos h1v]
    have h100 : (1 : ℝ) + 100 = 101 := by norm_num
    rw [h100]
    have hA : (0 : ℝ) ≤ (r : ℝ) / 5 * min 1 (Real.log (1 + (v : ℝ)) / Real.log 101) := by
      apply mul_nonneg
      · positivity
      · refine le_min (by norm_num) ?_
        refine div_nonneg ?_ hlog101
        apply Real.log_nonneg
        linarith
    congr 1
    rw [min_comm]
    rw [max_eq_right (le_min (by norm_num) hA)]
  · intro r hr
    have hf : fReviews 0 = 0 := by
      unfold fReviews
      rw [if_pos (by norm_num)]
      norm_num [Real.log_one]
    show (if 0 < r ∧ (0 : ℚ) ≤ 0 then some (min ((r : ℝ) / 5 * fReviews 0) 1) else none)
      = some (0 : ℝ)
    rw [if_pos ⟨hr, le_refl 0⟩, hf, mul_zero]
    norm_num
  · intro r v h
    show (if 0 < r ∧ 0 ≤ v then some (min ((r : ℝ) / 5 * fReviews v) 1) else none) = none
    rw [if_neg h]
  · intro v?
    rfl
  · intro r?
    cases r? <;> rfl
  · intro v h
    unfold fReviews
    rw [if_neg (not_lt.mpr h)]

/-- Witness for C7: rating 5 with zero reviews scores 0. -/
theorem scoreQualidade_spec_witness :
    scoreQualidade (some 5) (some 0) = some 0 :=
  scoreQualidade_spec.2.1 5 (by norm_num)

/-! ### C9: the price and review-count parsers
(`processador_resultados_amazon.py`) -/

/-- A Python value as it reaches `_to_float` / `_to_int`. -/
inductive PyVal where
  | none : PyVal
  | int : ℤ → PyVal
  | float : ℚ → PyVal
  | str : List Char → PyVal

/-- The first match of `_PRICE_RE = (\d+[\d\.,]*)`: from the first
digit, the maximal run of digits, dots and commas. -/
def priceToken : List Char → Option (List Char)
  | [] => Option.none
  | c :: rest =>
    if isDigitB c then
      some (c :: rest.takeWhile (fun d => isDigitB d || d = '.' || d = ','))
    else priceToken rest

/-- Is the rightmost separator of `num` a comma
(`num.rfind(",") > num.rfind(".")` when both are present)? -/
def lastSepIsComma (num : List Char) : Bool :=
  match num.reverse.find? (fun c => c = ',' || c = '.') with
  | some c => c = ','
  | Option.none => false

def countCh (c : Char) (l : List Char) : ℕ :=
  (l.filter (fun d => d = c)).length

/-- The separator-normalization block of `_to_float` (lines 32-39),
including its unreachable mixed-separator test on line 39. -/
def normalizeNum (num : List Char) : List Char :=
  if ',' ∈ num ∧ '.' ∈ num then
    if lastSepIsComma num then
      (num.filter (fun c => c ≠ '.')).map (fun c => if c = ',' then '.' else c)
    else num.filter (fun c => c ≠ ',')
  else
    if countCh ',' num = 1 ∧ 1 ≤ countCh '.' num then
      (num.filter (fun c => c ≠ '.')).map (fun c => if c = ',' then '.' else c)
    else num.map (fun c => if c = ',' then '.' else c)

def natVal (s : List Char) : ℕ :=
  s.foldl (fun acc c => 10 * acc + (c.toNat - 48)) 0

/-- Python's `float(str)` on the digit/dot strings this parser can
produce (the wrapping `try/except ValueError` returns `None` on
anything else). -/
def parsePyFloat (s : List Char) : Option ℚ :=
  if s.all (fun c => isDigitB c || c = '.') then
    match s.splitOn '.' with
    | [a] => if a = [] then Option.none else some ((natVal a : ℚ))
    | [a, b] =>
      if a = [] ∧ b = [] then Option.none
      else some ((natVal a : ℚ) + (natVal b : ℚ) / ((10 : ℚ) ^ b.length))
    | _ => Option.none
  else Option.none

/-- Embedding of `_to_float`. -/
def toFloat : PyVal → Option ℚ
  | .none => Option.none
  | .int n => some ((n : ℚ))
  | .float q => some q
  | .str s =>
    match priceToken (pyStrip s) with
    | Option.none => Option.none
    | some num => parsePyFloat (normalizeNum num)

/-- Python's `int()` on a float: truncation toward zero. -/
def truncQ (q : ℚ) : ℤ :=
  if 0 ≤ q then q.floor else q.ceil

/-- Embedding of `_to_int` (`re.sub(r"\D", "", s)` keeps the digits;
`int` on a nonempty digit string never fails). -/
def toInt : PyVal → Option ℤ
  | .none => Option.none
  | .int n => some n
  | .float q => some (truncQ q)
  | .str s =>
    let digits := s.filter isDigitB
    if digits = [] then Option.none else some ((natVal digits : ℤ))

theorem priceToken_none {s : List Char} (h : ∀ c ∈ s, isDigitB c = false) :
    priceToken s = Option.none := by
  induction s with
  | nil => rfl
  | cons c rest ih =>
    unfold priceToken
    rw [if_neg (by rw [h c (List.mem_cons_self _ _)]; simp)]
    exact ih (fun d hd => h d (List.mem_cons_of_mem _ hd))

theorem pyStrip_subset {s : List Char} : ∀ c ∈ pyStrip s, c ∈ s := by
  intro c hc
  unfold pyStrip at hc
  rw [List.mem_reverse] at hc
  have h1 := (List.dropWhile_sublist (l := (s.dropWhile isSpaceB).reverse)
    (p := isSpaceB)).subset hc
  rw [List.mem_reverse] at h1
  exact (List.dropWhile_sublist (l := s) (p := isSpaceB)).subset h1

/-- C9: the parsers are total — `None` and unparseable values yield
the undefined optional result rather than an exception, numeric
values pass through (ints exactly, floats truncated toward zero by
`_to_int`), digit-free strings parse to `None` in both parsers, and
locale-formatted numeric strings yield their numeric value. -/
theorem parsers_total_spec :
    toFloat PyVal.none = Option.none
    ∧ (∀ n : ℤ, toFloat (PyVal.int n) = some ((n : ℚ)))
    ∧ (∀ q : ℚ, toFloat (PyVal.float q) = some q)
    ∧ (∀ s : List Char, (∀ c ∈ s, isDigitB c = false) →
        toFloat (PyVal.str s) = Option.none ∧ toInt (PyVal.str s) = Option.none)
    ∧ toInt PyVal.none = Option.none
    ∧ (∀ n : ℤ, toInt (PyVal.int n) = some n)
    ∧ (∀ q : ℚ, toInt (PyVal.float q) = some (truncQ q))
    ∧ toFloat (PyVal.str "R$ 1.234,56".toList) = some (123456 / 100)
    ∧ toFloat (PyVal.str "abc".toList) = Option.none
    ∧ toInt (PyVal.str "1.234 avaliações".toList) = some 1234
    ∧ toInt (PyVal.str "sem dados".toList) = Option.none := by
  refine ⟨rfl, fun n => rfl, fun q => rfl, ?_, rfl, fun n => rfl, fun q => rfl,
    by decide, by decide, by decide, by decide⟩
  intro s h
  constructor
  · show (match priceToken (pyStrip s) with
      | Option.none => Option.none
      | some num => parsePyFloat (normalizeNum num)) = Option.none
    rw [priceToken_none (fun c hc => h c (pyStrip_subset c hc))]
  · show (if s.filter isDigitB = [] then Option.none
      else some ((natVal (s.filter isDigitB) : ℤ))) = Option.none
    rw [if_pos]
    rw [List.filter_eq_nil_iff]
    intro c hc
    rw [h c hc]
    simp

/-- Witness for C9 on a digit-free string. -/
theorem parsers_total_spec_witness :
    toFloat (PyVal.str "indisponível".toList) = Option.none
    ∧ toInt (PyVal.str "indisponível".toList) = Option.none :=
  parsers_total_spec.2.2.2.1 "indisponível".toList (by decide)

/-! ### C10: brand title-case reformatting
(`formatar_marca_titlecase` in `fuzzy_matching.py`) -/

/-- The internal delimiters preserved by the formatter:
`[\-\/&\+]`. -/
def isDelimB (c : Char) : Bool :=
  c = '-' || c = '/' || c = '&' || c = '+'

def delimsStr : List Char := ['-', '/', '&', '+']

/-- Embedding of `_fmt_piece`: pieces containing a digit are kept,
one-character pieces are uppercased, anything else gets first letter
upper and the rest lower. -/
def fmtPiece (p : List Char) : List Char :=
  if p.isEmpty then p
  else if p.any isDigitB then p
  else
    match p with
    | [] => p
    | c :: rest =>
      if rest = [] then [pyUpperChar c]
      else pyUpperChar c :: rest.map pyLowerChar

/-- Python `p.split("'")`: pieces between apostrophes, empties kept. -/
def splitApos : List Char → List (List Char)
  | [] => [[]]
  | c :: rest =>
    if c = '\'' then [] :: splitApos rest
    else
      match splitApos rest with
      | [] => [[c]]
      | piece :: more => (c :: piece) :: more

/-- Python `"'".join(...)`. -/
def joinApos : List (List Char) → List Char
  | [] => []
  | [p] => p
  | p :: ps => p ++ '\'' :: joinApos ps

/-- The per-sub-token step: apostrophe-splitting around
`_fmt_piece`. -/
def fmtSub (p : List Char) : List Char :=
  if '\'' ∈ p then joinApos ((splitApos p).map fmtPiece) else fmtPiece p

/-- Python `re.split(r"([\-\/&\+])", tok)`: pieces between delimiter
characters (possibly empty) with each delimiter kept as its own
one-character entry. -/
def splitDelims : List Char → List (List Char)
  | [] => [[]]
  | c :: rest =>
    if isDelimB c then [] :: [c] :: splitDelims rest
    else
      match splitDelims rest with
      | [] => [[c]]
      | piece :: more => (c :: piece) :: more

/-- The loop body over the delimiter split: Python tests membership
of `p` in the delimiter string with the substring operator (true for
the delimiter entries and for the empty string); everything else goes
through `_fmt_piece` with apostrophe handling. -/
def stepDelim (p : List Char) : List Char :=
  if containsSub p delimsStr then p else fmtSub p

def fmtTok (tok : List Char) : List Char :=
  ((splitDelims tok).map stepDelim).flatten

/-- Maximal runs of characters with the same whitespace class: the
nonempty tokens of `re.split(r"(\s+)", s)` in order. -/
def runs : List Char → List (List Char)
  | [] => []
  | c :: rest =>
    match runs rest with
    | [] => [[c]]
    | r :: rs =>
      match r with
      | [] => [c] :: r :: rs
      | d :: _ => if isSpaceB c = isSpaceB d then (c :: r) :: rs else [c] :: r :: rs

/-- Whitespace tokens are appended unchanged, word tokens are
formatted. -/
def stepRun (r : List Char) : List Char :=
  match r with
  | [] => []
  | d :: _ => if isSpaceB d then r else fmtTok r

def formatarStr (s : List Char) : List Char :=
  ((runs s).map stepRun).flatten

/-- Embedding of `formatar_marca_titlecase`. -/
def formatarMarcaTitlecase : Option (List Char) → Option (List Char)
  | Option.none => Option.none
  | some marca =>
    let s := pyStrip marca
    if s = [] then Option.none else some (formatarStr s)

/-! #### Character-level case lemmas -/

theorem toNat_ofNat_letter {n : ℕ} (h1 : 65 ≤ n) (h2 : n ≤ 122) :
    (Char.ofNat n).toNat = n := by
  unfold Char.ofNat
  rw [dif_pos (Or.inl (by omega))]
  show (UInt32.ofNatCore n _).toNat = n
  simp [UInt32.ofNatCore, UInt32.toNat]

theorem pyUpperChar_toNat (c : Char) :
    (pyUpperChar c).toNat
      = if 97 ≤ c.toNat ∧ c.toNat ≤ 122 then c.toNat - 32 else c.toNat := by
  unfold pyUpperChar
  by_cases h : 97 ≤ c.toNat ∧ c.toNat ≤ 122
  · rw [if_pos (by simpa using h), if_pos h]
    exact toNat_ofNat_letter (by omega) (by omega)
  · rw [if_neg (by simpa using h), if_neg h]

theorem pyLowerChar_toNat (c : Char) :
    (pyLowerChar c).toNat
      = if 65 ≤ c.toNat ∧ c.toNat ≤ 90 then c.toNat + 32 else c.toNat := by
  unfold pyLowerChar
  by_cases h : 65 ≤ c.toNat ∧ c.toNat ≤ 90
  · rw [if_pos (by simpa using h), if_pos h]
    exact toNat_ofNat_letter (by omega) (by omega)
  · rw [if_neg (by simpa using h), if_neg h]

theorem isDigitB_iff (c : Char) :
    isDigitB c = true ↔ (48 ≤ c.toNat ∧ c.toNat ≤ 57) := by
  simp [isDigitB]

theorem isSpaceB_iff (c : Char) :
    isSpaceB c = true ↔ (c.toNat = 32 ∨ c.toNat = 9 ∨ c.toNat = 10
      ∨ c.toNat = 13 ∨ c.toNat = 11 ∨ c.toNat = 12) := by
  simp only [isSpaceB, Bool.or_eq_true, decide_eq_true_eq]
  constructor
  · rintro (((((h | h) | h) | h) | h) | h) <;> subst h <;> decide
  · rintro (h | h | h | h | h | h)
    · exact Or.inl (Or.inl (Or.inl (Or.inl (Or.inl
        (char_eq_of_toNat_eq (by rw [h]; rfl))))))
    · exact Or.inl (Or.inl (Or.inl (Or.inl (Or.inr
        (char_eq_of_toNat_eq (by rw [h]; rfl))))))
    · exact Or.inl (Or.inl (Or.inl (Or.inr
        (char_eq_of_toNat_eq (by rw [h]; rfl)))))
    · exact Or.inl (Or.inl (Or.inr (char_eq_of_toNat_eq (by rw [h]; rfl))))
    · exact Or.inl (Or.inr (char_eq_of_toNat_eq (by rw [h]; rfl)))
    · exact Or.inr (char_eq_of_toNat_eq (by rw [h]; rfl))

theorem isDelimB_iff (c : Char) :
    isDelimB c = true ↔ (c.toNat = 45 ∨ c.toNat = 47 ∨ c.toNat = 38
      ∨ c.toNat = 43) := by
  simp only [isDelimB, Bool.or_eq_true, decide_eq_true_eq]
  constructor
  · rintro (((h | h) | h) | h) <;> subst h <;> decide
  · rintro (h | h | h | h)
    · exact Or.inl (Or.inl (Or.inl (char_eq_of_toNat_eq (by rw [h]; rfl))))
    · exact Or.inl (Or.inl (Or.inr (char_eq_of_toNat_eq (by rw [h]; rfl))))
    · exact Or.inl (Or.inr (char_eq_of_toNat_eq (by rw [h]; rfl)))
    · exact Or.inr (char_eq_of_toNat_eq (by rw [h]; rfl))

theorem apos_iff (c : Char) : c = '\'' ↔ c.toNat = 39 := by
  constructor
  · rintro rfl; decide
  · intro h; exact char_eq_of_toNat_eq (by rw [h]; rfl)

/-- The case maps preserve the absence of digits, whitespace,
delimiters and apostrophes: a letter never case-maps into one of
those classes. -/
theorem classPreserve {c d : Char}
    (ht : d.toNat = c.toNat
      ∨ (d.toNat = c.toNat - 32 ∧ 97 ≤ c.toNat ∧ c.toNat ≤ 122)
      ∨ (d.toNat = c.toNat + 32 ∧ 65 ≤ c.toNat ∧ c.toNat ≤ 90)) :
    (isDigitB c = false → isDigitB d = false)
    ∧ (isSpaceB c = false → isSpaceB d = false)
    ∧ (isDelimB c = false → isDelimB d = false)
    ∧ (c ≠ '\'' → d ≠ '\'') := by
  refine ⟨?_, ?_, ?_, ?_⟩
  · intro h
    rw [Bool.eq_false_iff] at h ⊢
    rw [Ne, isDigitB_iff] at h ⊢
    rcases ht with ht | ⟨ht, h1, h2⟩ | ⟨ht, h1, h2⟩ <;> omega
  · intro h
    rw [Bool.eq_false_iff] at h ⊢
    rw [Ne, isSpaceB_iff] at h ⊢
    rcases ht with ht | ⟨ht, h1, h2⟩ | ⟨ht, h1, h2⟩ <;> omega
  · intro h
    rw [Bool.eq_false_iff] at h ⊢
    rw [Ne, isDelimB_iff] at h ⊢
    rcases ht with ht | ⟨ht, h1, h2⟩ | ⟨ht, h1, h2⟩ <;> omega
  · intro h
    rw [Ne, apos_iff] at h ⊢
    rcases ht with ht | ⟨ht, h1, h2⟩ | ⟨ht, h1, h2⟩ <;> omega

theorem pyUpperChar_cases (c : Char) :
    (pyUpperChar c).toNat = c.toNat
      ∨ ((pyUpperChar c).toNat = c.toNat - 32 ∧ 97 ≤ c.toNat ∧ c.toNat ≤ 122)
      ∨ ((pyUpperChar c).toNat = c.toNat + 32 ∧ 65 ≤ c.toNat ∧ c.toNat ≤ 90) := by
  have h := pyUpperChar_toNat c
  by_cases hc : 97 ≤ c.toNat ∧ c.toNat ≤ 122
  · rw [if_pos hc] at h
    exact Or.inr (Or.inl ⟨h, hc.1, hc.2⟩)
  · rw [if_neg hc] at h
    exact Or.inl h

theorem pyLowerChar_cases (c : Char) :
    (pyLowerChar c).toNat = c.toNat
      ∨ ((pyLowerChar c).toNat = c.toNat - 32 ∧ 97 ≤ c.toNat ∧ c.toNat ≤ 122)
      ∨ ((pyLowerChar c).toNat = c.toNat + 32 ∧ 65 ≤ c.toNat ∧ c.toNat ≤ 90) := by
  have h := pyLowerChar_toNat c
  by_cases hc : 65 ≤ c.toNat ∧ c.toNat ≤ 90
  · rw [if_pos hc] at h
    exact Or.inr (Or.inr ⟨h, hc.1, hc.2⟩)
  · rw [if_neg hc] at h
    exact Or.inl h

theorem pyLowerChar_id {c : Char} (h : ¬ (65 ≤ c.toNat ∧ c.toNat ≤ 90)) :
    pyLowerChar c = c := by
  simp only [pyLowerChar]
  rw [if_neg (by simpa using h)]

theorem pyUpperChar_idem (c : Char) :
    pyUpperChar (pyUpperChar c) = pyUpperChar c := by
  apply pyUpperChar_id
  rcases pyUpperChar_cases c with h | ⟨h, h1, h2⟩ | ⟨h, h1, h2⟩ <;>
    · rw [h]
      by_cases hc : 97 ≤ c.toNat ∧ c.toNat ≤ 122
      · have := pyUpperChar_toNat c
        rw [if_pos hc] at this
        omega
      · have := pyUpperChar_toNat c
        rw [if_neg hc] at this
        omega

theorem pyLowerChar_idem (c : Char) :
    pyLowerChar (pyLowerChar c) = pyLowerChar c := by
  apply pyLowerChar_id
  have h := pyLowerChar_toNat c
  by_cases hc : 65 ≤ c.toNat ∧ c.toNat ≤ 90
  · rw [if_pos hc] at h
    omega
  · rw [if_neg hc] at h
    omega

/-! #### Output characters are case variants of input characters -/

/-- Every character of `out` is a character of `src`, possibly
case-mapped. -/
def CasedOf (out src : List Char) : Prop :=
  ∀ c ∈ out, ∃ c₀ ∈ src, c = c₀ ∨ c = pyUpperChar c₀ ∨ c = pyLowerChar c₀

theorem CasedOf.refl (l : List Char) : CasedOf l l :=
  fun c hc => ⟨c, hc, Or.inl rfl⟩

theorem CasedOf.sub {out src src' : List Char} (h : CasedOf out src)
    (hsub : ∀ c ∈ src, c ∈ src') : CasedOf out src' := by
  intro c hc
  obtain ⟨c₀, hc₀, hcase⟩ := h c hc
  exact ⟨c₀, hsub c₀ hc₀, hcase⟩

theorem CasedOf.not_space {out src : List Char} (h : CasedOf out src)
    (hs : ∀ c ∈ src, isSpaceB c = false) : ∀ c ∈ out, isSpaceB c = false := by
  intro c hc
  obtain ⟨c₀, hc₀, hcase⟩ := h c hc
  rcases hcase with rfl | rfl | rfl
  · exact hs _ hc₀
  · exact (classPreserve (pyUpperChar_cases _)).2.1 (hs _ hc₀)
  · exact (classPreserve (pyLowerChar_cases _)).2.1 (hs _ hc₀)

theorem CasedOf.not_digit {out src : List Char} (h : CasedOf out src)
    (hs : ∀ c ∈ src, isDigitB c = false) : ∀ c ∈ out, isDigitB c = false := by
  intro c hc
  obtain ⟨c₀, hc₀, hcase⟩ := h c hc
  rcases hcase with rfl | rfl | rfl
  · exact hs _ hc₀
  · exact (classPreserve (pyUpperChar_cases _)).1 (hs _ hc₀)
  · exact (classPreserve (pyLowerChar_cases _)).1 (hs _ hc₀)

theorem CasedOf.not_delim {out src : List Char} (h : CasedOf out src)
    (hs : ∀ c ∈ src, isDelimB c = false) : ∀ c ∈ out, isDelimB c = false := by
  intro c hc
  obtain ⟨c₀, hc₀, hcase⟩ := h c hc
  rcases hcase with rfl | rfl | rfl
  · exact hs _ hc₀
  · exact (classPreserve (pyUpperChar_cases _)).2.2.1 (hs _ hc₀)
  · exact (classPreserve (pyLowerChar_cases _)).2.2.1 (hs _ hc₀)

theorem CasedOf.not_apos {out src : List Char} (h : CasedOf out src)
    (hs : ∀ c ∈ src, c ≠ '\'') : ∀ c ∈ out, c ≠ '\'' := by
  intro c hc
  obtain ⟨c₀, hc₀, hcase⟩ := h c hc
  rcases hcase with rfl | rfl | rfl
  · exact hs _ hc₀
  · exact (classPreserve (pyUpperChar_cases _)).2.2.2 (hs _ hc₀)
  · exact (classPreserve (pyLowerChar_cases _)).2.2.2 (hs _ hc₀)

/-! #### `fmtPiece` -/

/-- `_fmt_piece` on a digit-free nonempty piece: first character
uppercased, the rest lowercased (the one-character branch is the
special case of an empty rest). -/
theorem fmtPiece_cons {c : Char} {rest : List Char}
    (hd : (c :: rest).any isDigitB = false) :
    fmtPiece (c :: rest) = pyUpperChar c :: rest.map pyLowerChar := by
  unfold fmtPiece
  rw [if_neg (by simp), if_neg (by simp [hd])]
  cases rest with
  | nil => rfl
  | cons a t =>
    show (if (a :: t) = [] then [pyUpperChar c]
      else pyUpperChar c :: (a :: t).map pyLowerChar) = _
    rw [if_neg (by simp)]

theorem fmtPiece_digit {p : List Char} (h : p.any isDigitB = true) :
    fmtPiece p = p := by
  unfold fmtPiece
  cases p with
  | nil => simp
  | cons c rest => rw [if_neg (by simp), if_pos h]

theorem fmtPiece_nil : fmtPiece [] = [] := rfl

theorem fmtPiece_ne_nil {p : List Char} (h : p ≠ []) : fmtPiece p ≠ [] := by
  cases p with
  | nil => exact absurd rfl h
  | cons c rest =>
    cases hd : (c :: rest).any isDigitB with
    | true => rw [fmtPiece_digit hd]; simp
    | false => rw [fmtPiece_cons hd]; simp

theorem fmtPiece_length (p : List Char) : (fmtPiece p).length = p.length := by
  cases p with
  | nil => rfl
  | cons c rest =>
    cases hd : (c :: rest).any isDigitB with
    | true => rw [fmtPiece_digit hd]
    | false => rw [fmtPiece_cons hd]; simp

theorem fmtPiece_cased (p : List Char) : CasedOf (fmtPiece p) p := by
  cases p with
  | nil => exact CasedOf.refl []
  | cons c rest =>
    cases hd : (c :: rest).any isDigitB with
    | true => rw [fmtPiece_digit hd]; exact CasedOf.refl _
    | false =>
      rw [fmtPiece_cons hd]
      intro x hx
      rcases List.mem_cons.mp hx with rfl | hx
      · exact ⟨c, List.mem_cons_self _ _, Or.inr (Or.inl rfl)⟩
      · rcases List.mem_map.mp hx with ⟨x₀, hx₀, rfl⟩
        exact ⟨x₀, List.mem_cons_of_mem _ hx₀, Or.inr (Or.inr rfl)⟩

theorem fmtPiece_idem (p : List Char) : fmtPiece (fmtPiece p) = fmtPiece p := by
  cases p with
  | nil => rfl
  | cons c rest =>
    cases hd : (c :: rest).any isDigitB with
    | true => rw [fmtPiece_digit hd, fmtPiece_digit hd]
    | false =>
      rw [fmtPiece_cons hd]
      have hd' : (pyUpperChar c :: rest.map pyLowerChar).any isDigitB = false := by
        rw [List.any_eq_false]
        have hall : ∀ x ∈ c :: rest, isDigitB x = false := by
          intro x hx
          have := List.any_eq_false.mp hd
          simpa using this x hx
        have := (fmtPiece_cased (c :: rest)).not_digit hall
        rw [fmtPiece_cons hd] at this
        intro x hx
        simp [this x hx]
      rw [fmtPiece_cons hd', pyUpperChar_idem, List.map_map]
      congr 1
      apply List.map_congr_left
      intro x _
      exact pyLowerChar_idem x

/-! #### Apostrophe splitting -/

theorem splitApos_apos (rest : List Char) :
    splitApos ('\'' :: rest) = [] :: splitApos rest := by
  simp [splitApos]

theorem splitApos_cons {c : Char} {rest piece : List Char}
    {more : List (List Char)} (hc : c ≠ '\'')
    (hrest : splitApos rest = piece :: more) :
    splitApos (c :: rest) = (c :: piece) :: more := by
  unfold splitApos
  rw [if_neg hc, hrest]

theorem splitApos_ne_nil : ∀ l : List Char, splitApos l ≠ [] := by
  intro l
  induction l with
  | nil => simp [splitApos]
  | cons c rest ih =>
    by_cases hc : c = '\''
    · subst hc
      rw [splitApos_apos]
      simp
    · cases hsp : splitApos rest with
      | nil => exact absurd hsp ih
      | cons piece more =>
        rw [splitApos_cons hc hsp]
        simp

theorem splitApos_pieces :
    ∀ l : List Char, ∀ q ∈ splitApos l, ∀ c ∈ q, c ∈ l ∧ c ≠ '\'' := by
  intro l
  induction l with
  | nil =>
    intro q hq c hc
    simp [splitApos] at hq
    subst hq
    simp at hc
  | cons a rest ih =>
    intro q hq c hc
    by_cases ha : a = '\''
    · subst ha
      rw [splitApos_apos] at hq
      rcases List.mem_cons.mp hq with rfl | hq
      · simp at hc
      · obtain ⟨h1, h2⟩ := ih q hq c hc
        exact ⟨List.mem_cons_of_mem _ h1, h2⟩
    · cases hsp : splitApos rest with
      | nil => exact absurd hsp (splitApos_ne_nil rest)
      | cons piece more =>
        rw [splitApos_cons ha hsp] at hq
        rcases List.mem_cons.mp hq with rfl | hq
        · rcases List.mem_cons.mp hc with rfl | hc
          · exact ⟨List.mem_cons_self _ _, ha⟩
          · obtain ⟨h1, h2⟩ := ih piece (hsp ▸ List.mem_cons_self _ _) c hc
            exact ⟨List.mem_cons_of_mem _ h1, h2⟩
        · obtain ⟨h1, h2⟩ := ih q (hsp ▸ List.mem_cons_of_mem _ hq) c hc
          exact ⟨List.mem_cons_of_mem _ h1, h2⟩

theorem splitApos_free : ∀ {l : List Char}, (∀ c ∈ l, c ≠ '\'') →
    splitApos l = [l] := by
  intro l
  induction l with
  | nil => intro _; rfl
  | cons c rest ih =>
    intro h
    have hrest := ih (fun d hd => h d (List.mem_cons_of_mem _ hd))
    rw [splitApos_cons (h c (List.mem_cons_self _ _)) hrest]

theorem splitApos_append_free :
    ∀ {p : List Char}, (∀ c ∈ p, c ≠ '\'') →
      ∀ {l piece : List Char} {more : List (List Char)},
      splitApos l = piece :: more →
      splitApos (p ++ l) = (p ++ piece) :: more := by
  intro p
  induction p with
  | nil => intro _ l piece more h; simpa using h
  | cons c p' ih =>
    intro hp l piece more h
    have h' := ih (fun d hd => hp d (List.mem_cons_of_mem _ hd)) h
    show splitApos (c :: (p' ++ l)) = ((c :: p') ++ piece) :: more
    rw [splitApos_cons (hp c (List.mem_cons_self _ _)) h']
    rfl

theorem splitApos_joinApos :
    ∀ ps : List (List Char), ps ≠ [] → (∀ q ∈ ps, ∀ c ∈ q, c ≠ '\'') →
      splitApos (joinApos ps) = ps := by
  intro ps
  induction ps with
  | nil => intro h _; exact absurd rfl h
  | cons q ps' ih =>
    intro _ hfree
    cases ps' with
    | nil =>
      show splitApos q = [q]
      exact splitApos_free (hfree q (List.mem_cons_self _ _))
    | cons q' ps'' =>
      have hjoin : joinApos (q :: q' :: ps'') = q ++ '\'' :: joinApos (q' :: ps'') := rfl
      rw [hjoin]
      have hrest := ih (by simp) (fun u hu => hfree u (List.mem_cons_of_mem _ hu))
      rw [splitApos_append_free (hfree q (List.mem_cons_self _ _))
        (splitApos_apos (joinApos (q' :: ps''))), hrest]
      simp

theorem joinApos_mem :
    ∀ (ps : List (List Char)) (c : Char), c ∈ joinApos ps →
      c = '\'' ∨ ∃ q ∈ ps, c ∈ q := by
  intro ps
  induction ps with
  | nil => intro c hc; simp [joinApos] at hc
  | cons q ps' ih =>
    intro c hc
    cases ps' with
    | nil => exact Or.inr ⟨q, List.mem_singleton_self q, hc⟩
    | cons q' ps'' =>
      have : c ∈ q ++ '\'' :: joinApos (q' :: ps'') := hc
      rcases List.mem_append.mp this with h | h
      · exact Or.inr ⟨q, List.mem_cons_self _ _, h⟩
      · rcases List.mem_cons.mp h with rfl | h
        · exact Or.inl rfl
        · rcases ih c h with h' | ⟨u, hu, hcu⟩
          · exact Or.inl h'
          · exact Or.inr ⟨u, List.mem_cons_of_mem _ hu, hcu⟩

theorem splitApos_two {l : List Char} (h : '\'' ∈ l) :
    ∃ q q' t, splitApos l = q :: q' :: t := by
  induction l with
  | nil => simp at h
  | cons c rest ih =>
    by_cases hc : c = '\''
    · subst hc
      rw [splitApos_apos]
      cases hsp : splitApos rest with
      | nil => exact absurd hsp (splitApos_ne_nil rest)
      | cons piece more => exact ⟨[], piece, more, rfl⟩
    · have hrest : '\'' ∈ rest := by
        rcases List.mem_cons.mp h with h' | h'
        · exact absurd h'.symm hc
        · exact h'
      obtain ⟨q, q', t, hsp⟩ := ih hrest
      rw [splitApos_cons hc hsp]
      exact ⟨c :: q, q', t, rfl⟩

theorem apos_mem_joinApos (q q' : List Char) (t : List (List Char)) :
    '\'' ∈ joinApos (q :: q' :: t) := by
  show '\'' ∈ q ++ '\'' :: joinApos (q' :: t)
  simp

/-! #### `fmtSub` -/

theorem fmtSub_cased (p : List Char) : CasedOf (fmtSub p) p := by
  unfold fmtSub
  by_cases hp : '\'' ∈ p
  · rw [if_pos hp]
    intro c hc
    rcases joinApos_mem _ c hc with rfl | ⟨u, hu, hcu⟩
    · exact ⟨'\'', hp, Or.inl rfl⟩
    · rcases List.mem_map.mp hu with ⟨q, hq, rfl⟩
      obtain ⟨c₀, hc₀, hcase⟩ := fmtPiece_cased q c hcu
      exact ⟨c₀, (splitApos_pieces p q hq c₀ hc₀).1, hcase⟩
  · rw [if_neg hp]
    exact fmtPiece_cased p

theorem fmtSub_ne_nil {p : List Char} (h : p ≠ []) : fmtSub p ≠ [] := by
  unfold fmtSub
  by_cases hp : '\'' ∈ p
  · rw [if_pos hp]
    obtain ⟨q, q', t, hsp⟩ := splitApos_two hp
    rw [hsp]
    show joinApos (fmtPiece q :: fmtPiece q' :: t.map fmtPiece) ≠ []
    intro hcon
    have := apos_mem_joinApos (fmtPiece q) (fmtPiece q') (t.map fmtPiece)
    rw [hcon] at this
    simp at this
  · rw [if_neg hp]
    exact fmtPiece_ne_nil h

theorem fmtSub_idem (p : List Char) : fmtSub (fmtSub p) = fmtSub p := by
  by_cases hp : '\'' ∈ p
  · have h1 : fmtSub p = joinApos ((splitApos p).map fmtPiece) := by
      unfold fmtSub
      rw [if_pos hp]
    obtain ⟨q, q', t, hsp⟩ := splitApos_two hp
    have hmem : '\'' ∈ fmtSub p := by
      rw [h1, hsp]
      exact apos_mem_joinApos _ _ _
    have hfree : ∀ u ∈ (splitApos p).map fmtPiece, ∀ c ∈ u, c ≠ '\'' := by
      intro u hu c hc
      rcases List.mem_map.mp hu with ⟨q₀, hq₀, rfl⟩
      exact (fmtPiece_cased q₀).not_apos
        (fun d hd => (splitApos_pieces p q₀ hq₀ d hd).2) c hc
    have hne : (splitApos p).map fmtPiece ≠ [] := by
      rw [hsp]
      simp
    show fmtSub (fmtSub p) = fmtSub p
    rw [h1]
    unfold fmtSub
    rw [if_pos (h1 ▸ hmem), splitApos_joinApos _ hne hfree, List.map_map]
    congr 1
    apply List.map_congr_left
    intro u _
    exact fmtPiece_idem u
  · have h1 : fmtSub p = fmtPiece p := by
      unfold fmtSub
      rw [if_neg hp]
    have hfree : '\'' ∉ fmtPiece p := by
      intro hcon
      exact (fmtPiece_cased p).not_apos (fun d hd hd' => hp (hd' ▸ hd)) '\'' hcon rfl
    rw [h1]
    unfold fmtSub
    rw [if_neg hfree]
    exact fmtPiece_idem p

/-! #### Delimiter splitting -/

theorem splitDelims_delim {d : Char} (rest : List Char)
    (hd : isDelimB d = true) :
    splitDelims (d :: rest) = [] :: [d] :: splitDelims rest := by
  simp [splitDelims, hd]

theorem splitDelims_cons {c : Char} {rest piece : List Char}
    {more : List (List Char)} (hc : isDelimB c = false)
    (hrest : splitDelims rest = piece :: more) :
    splitDelims (c :: rest) = (c :: piece) :: more := by
  simp [splitDelims, hc, hrest]

theorem splitDelims_ne_nil : ∀ l : List Char, splitDelims l ≠ [] := by
  intro l
  induction l with
  | nil => simp [splitDelims]
  | cons c rest ih =>
    cases hc : isDelimB c with
    | true =>
      rw [splitDelims_delim rest hc]
      simp
    | false =>
      cases hsp : splitDelims rest with
      | nil => exact absurd hsp ih
      | cons piece more =>
        rw [splitDelims_cons hc hsp]
        simp

theorem splitDelims_subset :
    ∀ l : List Char, ∀ q ∈ splitDelims l, ∀ c ∈ q, c ∈ l := by
  intro l
  induction l with
  | nil =>
    intro q hq c hc
    simp [splitDelims] at hq
    subst hq
    simp at hc
  | cons a rest ih =>
    intro q hq c hc
    cases ha : isDelimB a with
    | true =>
      rw [splitDelims_delim rest ha] at hq
      rcases List.mem_cons.mp hq with rfl | hq
      · simp at hc
      · rcases List.mem_cons.mp hq with rfl | hq
        · simp only [List.mem_singleton] at hc
          subst hc
          exact List.mem_cons_self _ _
        · exact List.mem_cons_of_mem _ (ih q hq c hc)
    | false =>
      cases hsp : splitDelims rest with
      | nil => exact absurd hsp (splitDelims_ne_nil rest)
      | cons piece more =>
        rw [splitDelims_cons ha hsp] at hq
        rcases List.mem_cons.mp hq with rfl | hq
        · rcases List.mem_cons.mp hc with rfl | hc
          · exact List.mem_cons_self _ _
          · exact List.mem_cons_of_mem _
              (ih piece (hsp ▸ List.mem_cons_self _ _) c hc)
        · exact List.mem_cons_of_mem _
            (ih q (hsp ▸ List.mem_cons_of_mem _ hq) c hc)

/-- The alternating shape produced by the delimiter split: delimiter-
free pieces separated by single-delimiter entries, beginning and
ending with a piece. -/
inductive DelimAlt : List (List Char) → Prop where
  | single (p : List Char) (hfree : ∀ c ∈ p, isDelimB c = false) : DelimAlt [p]
  | cons (p : List Char) (d : Char) (rest : List (List Char))
      (hfree : ∀ c ∈ p, isDelimB c = false) (hd : isDelimB d = true)
      (hrest : DelimAlt rest) : DelimAlt (p :: [d] :: rest)

theorem splitDelims_alt : ∀ l : List Char, DelimAlt (splitDelims l) := by
  intro l
  induction l with
  | nil => exact DelimAlt.single [] (by simp)
  | cons c rest ih =>
    cases hc : isDelimB c with
    | true =>
      rw [splitDelims_delim rest hc]
      exact DelimAlt.cons [] c _ (by simp) hc ih
    | false =>
      cases hsp : splitDelims rest with
      | nil => exact absurd hsp (splitDelims_ne_nil rest)
      | cons piece more =>
        rw [splitDelims_cons hc hsp]
        rw [hsp] at ih
        cases ih with
        | single piece hfree =>
          refine DelimAlt.single (c :: piece) ?_
          intro x hx
          rcases List.mem_cons.mp hx with rfl | hx
          · exact hc
          · exact hfree x hx
        | cons piece d rest' hfree hd hrest =>
          refine DelimAlt.cons (c :: piece) d rest' ?_ hd hrest
          intro x hx
          rcases List.mem_cons.mp hx with rfl | hx
          · exact hc
          · exact hfree x hx

theorem splitDelims_free : ∀ {l : List Char}, (∀ c ∈ l, isDelimB c = false) →
    splitDelims l = [l] := by
  intro l
  induction l with
  | nil => intro _; rfl
  | cons c rest ih =>
    intro h
    have hrest := ih (fun d hd => h d (List.mem_cons_of_mem _ hd))
    rw [splitDelims_cons (h c (List.mem_cons_self _ _)) hrest]

theorem splitDelims_append_free :
    ∀ {p : List Char}, (∀ c ∈ p, isDelimB c = false) →
      ∀ {l piece : List Char} {more : List (List Char)},
      splitDelims l = piece :: more →
      splitDelims (p ++ l) = (p ++ piece) :: more := by
  intro p
  induction p with
  | nil => intro _ l piece more h; simpa using h
  | cons c p' ih =>
    intro hp l piece more h
    have h' := ih (fun d hd => hp d (List.mem_cons_of_mem _ hd)) h
    show splitDelims (c :: (p' ++ l)) = ((c :: p') ++ piece) :: more
    rw [splitDelims_cons (hp c (List.mem_cons_self _ _)) h']
    rfl

theorem splitDelims_flatten_alt :
    ∀ {ps : List (List Char)}, DelimAlt ps → splitDelims ps.flatten = ps := by
  intro ps h
  induction h with
  | single p hfree =>
    show splitDelims (p ++ []) = [p]
    rw [List.append_nil]
    exact splitDelims_free hfree
  | cons p d rest hfree hd hrest ih =>
    show splitDelims (p ++ ([d] ++ rest.flatten)) = p :: [d] :: rest
    have h1 : splitDelims (d :: rest.flatten) = [] :: [d] :: rest := by
      rw [splitDelims_delim _ hd, ih]
    have h2 := splitDelims_append_free hfree h1
    rw [show [d] ++ rest.flatten = d :: rest.flatten from rfl, h2, List.append_nil]

theorem DelimAlt.mem :
    ∀ {ps : List (List Char)}, DelimAlt ps → ∀ q ∈ ps,
      (∀ c ∈ q, isDelimB c = false) ∨ ∃ d, q = [d] ∧ isDelimB d = true := by
  intro ps h
  induction h with
  | single p hfree =>
    intro q hq
    simp only [List.mem_singleton] at hq
    subst hq
    exact Or.inl hfree
  | cons p d rest hfree hd hrest ih =>
    intro q hq
    rcases List.mem_cons.mp hq with rfl | hq
    · exact Or.inl hfree
    · rcases List.mem_cons.mp hq with rfl | hq
      · exact Or.inr ⟨d, rfl, hd⟩
      · exact ih q hq

/-! #### Substring membership facts -/

theorem startsWith_subset :
    ∀ {q s : List Char}, startsWith q s = true → ∀ c ∈ q, c ∈ s := by
  intro q
  induction q with
  | nil => intro s _ c hc; simp at hc
  | cons a q' ih =>
    intro s h c hc
    cases s with
    | nil => simp [startsWith] at h
    | cons b s' =>
      simp only [startsWith, Bool.and_eq_true, decide_eq_true_eq] at h
      rcases List.mem_cons.mp hc with rfl | hc
      · rw [h.1]
        exact List.mem_cons_self _ _
      · exact List.mem_cons_of_mem _ (ih h.2 c hc)

theorem containsSub_subset :
    ∀ {q s : List Char}, containsSub q s = true → ∀ c ∈ q, c ∈ s := by
  intro q s
  induction s with
  | nil =>
    intro h c hc
    simp only [containsSub, List.isEmpty_iff] at h
    subst h
    simp at hc
  | cons b s' ih =>
    intro h c hc
    simp only [containsSub, Bool.or_eq_true] at h
    rcases h with h | h
    · exact startsWith_subset h c hc
    · exact List.mem_cons_of_mem _ (ih h c hc)

theorem mem_delimsStr {c : Char} (h : c ∈ delimsStr) : isDelimB c = true := by
  simp only [delimsStr, List.mem_cons, List.not_mem_nil, or_false] at h
  rcases h with rfl | rfl | rfl | rfl <;> decide

theorem delim_containsSub {d : Char} (hd : isDelimB d = true) :
    containsSub [d] delimsStr = true := by
  rcases (isDelimB_iff d).mp hd with h | h | h | h
  · have hc : d = '-' := char_eq_of_toNat_eq (by rw [h]; rfl)
    subst hc
    decide
  · have hc : d = '/' := char_eq_of_toNat_eq (by rw [h]; rfl)
    subst hc
    decide
  · have hc : d = '&' := char_eq_of_toNat_eq (by rw [h]; rfl)
    subst hc
    decide
  · have hc : d = '+' := char_eq_of_toNat_eq (by rw [h]; rfl)
    subst hc
    decide

/-! #### `stepDelim` and `fmtTok` -/

theorem stepDelim_delim {d : Char} (hd : isDelimB d = true) :
    stepDelim [d] = [d] := by
  unfold stepDelim
  rw [if_pos (delim_containsSub hd)]

theorem stepDelim_cased (p : List Char) : CasedOf (stepDelim p) p := by
  unfold stepDelim
  by_cases h : containsSub p delimsStr = true
  · rw [if_pos h]
    exact CasedOf.refl p
  · rw [if_neg h]
    exact fmtSub_cased p

theorem stepDelim_ne_nil {p : List Char} (h : p ≠ []) : stepDelim p ≠ [] := by
  unfold stepDelim
  by_cases hc : containsSub p delimsStr = true
  · rw [if_pos hc]
    exact h
  · rw [if_neg hc]
    exact fmtSub_ne_nil h

theorem stepDelim_not_contains {p : List Char}
    (hfree : ∀ c ∈ p, isDelimB c = false) (hne : p ≠ []) :
    containsSub (stepDelim p) delimsStr = false := by
  have hfree' : ∀ c ∈ stepDelim p, isDelimB c = false :=
    (stepDelim_cased p).not_delim hfree
  have hne' : stepDelim p ≠ [] := stepDelim_ne_nil hne
  cases hcon : containsSub (stepDelim p) delimsStr with
  | false => rfl
  | true =>
    exfalso
    cases hsp : stepDelim p with
    | nil => exact hne' hsp
    | cons e t =>
      have : e ∈ delimsStr := by
        apply containsSub_subset hcon
        rw [hsp]
        exact List.mem_cons_self _ _
      have h1 := mem_delimsStr this
      have h2 := hfree' e (hsp ▸ List.mem_cons_self _ _)
      rw [h1] at h2
      exact absurd h2 (by simp)

theorem stepDelim_idem {p : List Char}
    (hfree : ∀ c ∈ p, isDelimB c = false) :
    stepDelim (stepDelim p) = stepDelim p := by
  by_cases hcon : containsSub p delimsStr = true
  · have h1 : stepDelim p = p := by unfold stepDelim; rw [if_pos hcon]
    rw [h1, h1]
  · have hne : p ≠ [] := by
      intro hcon'
      subst hcon'
      exact hcon (by decide)
    have h1 : stepDelim p = fmtSub p := by
      unfold stepDelim
      rw [if_neg hcon]
    have h2 := stepDelim_not_contains hfree hne
    rw [h1] at h2
    rw [h1]
    unfold stepDelim
    rw [h2]
    simp only [Bool.false_eq_true, if_false]
    exact fmtSub_idem p

theorem DelimAlt.map_step {ps : List (List Char)} (h : DelimAlt ps) :
    DelimAlt (ps.map stepDelim) := by
  induction h with
  | single p hfree =>
    exact DelimAlt.single (stepDelim p) ((stepDelim_cased p).not_delim hfree)
  | cons p d rest hfree hd hrest ih =>
    rw [show (p :: [d] :: rest).map stepDelim
      = stepDelim p :: stepDelim [d] :: rest.map stepDelim from rfl,
      stepDelim_delim hd]
    exact DelimAlt.cons (stepDelim p) d (rest.map stepDelim)
      ((stepDelim_cased p).not_delim hfree) hd ih

theorem fmtTok_cased (tok : List Char) : CasedOf (fmtTok tok) tok := by
  intro c hc
  unfold fmtTok at hc
  rcases List.mem_flatten.mp hc with ⟨u, hu, hcu⟩
  rcases List.mem_map.mp hu with ⟨q, hq, rfl⟩
  obtain ⟨c₀, hc₀, hcase⟩ := stepDelim_cased q c hcu
  exact ⟨c₀, splitDelims_subset tok q hq c₀ hc₀, hcase⟩

theorem splitDelims_flatten : ∀ l : List Char, (splitDelims l).flatten = l := by
  intro l
  induction l with
  | nil => simp [splitDelims]
  | cons c rest ih =>
    cases hc : isDelimB c with
    | true =>
      rw [splitDelims_delim rest hc]
      simp [ih]
    | false =>
      cases hsp : splitDelims rest with
      | nil => exact absurd hsp (splitDelims_ne_nil rest)
      | cons piece more =>
        rw [splitDelims_cons hc hsp]
        rw [hsp] at ih
        simp only [List.flatten_cons] at ih ⊢
        rw [List.cons_append, ih]

theorem fmtTok_ne_nil {tok : List Char} (h : tok ≠ []) : fmtTok tok ≠ [] := by
  unfold fmtTok
  have halt := splitDelims_alt tok
  have hflat := splitDelims_flatten tok
  generalize hsp : splitDelims tok = ps at halt hflat
  cases halt with
  | single p hfree =>
    have hp : p = tok := by simpa using hflat
    rw [show (List.map stepDelim [p]).flatten = stepDelim p ++ [] from rfl,
      List.append_nil]
    exact stepDelim_ne_nil (hp ▸ h)
  | cons p d rest hfree hd hrest =>
    rw [show (p :: [d] :: rest).map stepDelim
      = stepDelim p :: stepDelim [d] :: rest.map stepDelim from rfl,
      stepDelim_delim hd]
    intro hcon
    have hmem : d ∈ (stepDelim p :: [d] :: rest.map stepDelim).flatten := by
      rw [List.mem_flatten]
      exact ⟨[d], by simp, List.mem_singleton_self d⟩
    rw [hcon] at hmem
    simp at hmem

theorem fmtTok_idem (tok : List Char) : fmtTok (fmtTok tok) = fmtTok tok := by
  have halt := splitDelims_alt tok
  have hround : splitDelims (((splitDelims tok).map stepDelim).flatten)
      = (splitDelims tok).map stepDelim :=
    splitDelims_flatten_alt halt.map_step
  show fmtTok (((splitDelims tok).map stepDelim).flatten)
    = ((splitDelims tok).map stepDelim).flatten
  unfold fmtTok
  rw [hround, List.map_map]
  congr 1
  apply List.map_congr_left
  intro q hq
  rcases halt.mem q hq with hfree | ⟨d, rfl, hd⟩
  · exact stepDelim_idem hfree
  · show stepDelim (stepDelim [d]) = stepDelim [d]
    rw [stepDelim_delim hd, stepDelim_delim hd]

/-! #### Whitespace runs -/

theorem runs_cons_nil {c : Char} {rest : List Char} (h : runs rest = []) :
    runs (c :: rest) = [[c]] := by
  simp [runs, h]

theorem runs_cons_empty {c : Char} {rest : List Char} {rs : List (List Char)}
    (h : runs rest = [] :: rs) : runs (c :: rest) = [c] :: [] :: rs := by
  simp [runs, h]

theorem runs_cons_merge {c d : Char} {rest t : List Char} {rs : List (List Char)}
    (h : runs rest = (d :: t) :: rs) (hcd : isSpaceB c = isSpaceB d) :
    runs (c :: rest) = (c :: d :: t) :: rs := by
  simp [runs, h, hcd]

theorem runs_cons_new {c d : Char} {rest t : List Char} {rs : List (List Char)}
    (h : runs rest = (d :: t) :: rs) (hcd : ¬ isSpaceB c = isSpaceB d) :
    runs (c :: rest) = [c] :: (d :: t) :: rs := by
  simp [runs, h, hcd]

theorem runs_head (c : Char) (rest : List Char) :
    ∃ t rs, runs (c :: rest) = (c :: t) :: rs := by
  cases hsp : runs rest with
  | nil => exact ⟨[], [], runs_cons_nil hsp⟩
  | cons r rs =>
    cases r with
    | nil => exact ⟨[], [] :: rs, runs_cons_empty hsp⟩
    | cons d t =>
      by_cases hcd : isSpaceB c = isSpaceB d
      · exact ⟨d :: t, rs, runs_cons_merge hsp hcd⟩
      · exact ⟨[], (d :: t) :: rs, runs_cons_new hsp hcd⟩

theorem runs_nonempty : ∀ l : List Char, ∀ r ∈ runs l, r ≠ [] := by
  intro l
  induction l with
  | nil => intro r hr; simp [runs] at hr
  | cons c rest ih =>
    intro r hr
    cases hsp : runs rest with
    | nil =>
      rw [runs_cons_nil hsp] at hr
      simp only [List.mem_singleton] at hr
      subst hr
      simp
    | cons r0 rs =>
      cases r0 with
      | nil => exact absurd rfl (ih [] (hsp ▸ List.mem_cons_self _ _))
      | cons d t =>
        by_cases hcd : isSpaceB c = isSpaceB d
        · rw [runs_cons_merge hsp hcd] at hr
          rcases List.mem_cons.mp hr with rfl | hr
          · simp
          · exact ih r (hsp ▸ List.mem_cons_of_mem _ hr)
        · rw [runs_cons_new hsp hcd] at hr
          rcases List.mem_cons.mp hr with rfl | hr
          · simp
          · exact ih r (hsp ▸ hr)

theorem runs_flatten : ∀ l : List Char, (runs l).flatten = l := by
  intro l
  induction l with
  | nil => rfl
  | cons c rest ih =>
    cases hsp : runs rest with
    | nil =>
      rw [runs_cons_nil hsp]
      rw [hsp] at ih
      simp only [List.flatten_nil] at ih
      simp [← ih]
    | cons r0 rs =>
      cases r0 with
      | nil => exact absurd rfl (runs_nonempty rest [] (hsp ▸ List.mem_cons_self _ _))
      | cons d t =>
        rw [hsp] at ih
        by_cases hcd : isSpaceB c = isSpaceB d
        · rw [runs_cons_merge hsp hcd]
          simp only [List.flatten_cons] at ih ⊢
          rw [List.cons_append, ih]
        · rw [runs_cons_new hsp hcd]
          simp only [List.flatten_cons] at ih ⊢
          rw [List.singleton_append, ih]

/-- The alternating-run shape: nonempty runs of uniform whitespace
class, classes alternating, the first run having class `b`. -/
inductive RunsAlt : Bool → List (List Char) → Prop where
  | nil (b : Bool) : RunsAlt b []
  | cons (b : Bool) (r : List Char) (rest : List (List Char))
      (hne : r ≠ []) (huni : ∀ c ∈ r, isSpaceB c = b)
      (hrest : RunsAlt (!b) rest) : RunsAlt b (r :: rest)

theorem RunsAlt.mem' :
    ∀ {b : Bool} {rs : List (List Char)}, RunsAlt b rs →
      ∀ r ∈ rs, r ≠ [] ∧ ∃ b', ∀ c ∈ r, isSpaceB c = b' := by
  intro b rs h
  induction h with
  | nil => intro r hr; simp at hr
  | cons b r rest hne huni hrest ih =>
    intro r' hr'
    rcases List.mem_cons.mp hr' with rfl | hr'
    · exact ⟨hne, b, huni⟩
    · exact ih r' hr'

theorem runs_alt :
    ∀ (rest : List Char) (c : Char), RunsAlt (isSpaceB c) (runs (c :: rest)) := by
  intro rest
  induction rest with
  | nil =>
    intro c
    have h0 : runs ([] : List Char) = [] := rfl
    rw [runs_cons_nil h0]
    exact RunsAlt.cons _ [c] [] (by simp)
      (by intro x hx; simp only [List.mem_singleton] at hx; subst hx; rfl)
      (RunsAlt.nil _)
  | cons d rest' ih =>
    intro c
    have hid := ih d
    obtain ⟨t, rs, hr⟩ := runs_head d rest'
    rw [hr] at hid
    by_cases hcd : isSpaceB c = isSpaceB d
    · rw [runs_cons_merge hr hcd]
      cases hid with
      | cons _ _ _ hne huni hrest =>
        refine RunsAlt.cons _ _ _ (by simp) ?_ ?_
        · intro x hx
          rcases List.mem_cons.mp hx with rfl | hx
          · rfl
          · rw [huni x hx, hcd]
        · have hb : (!isSpaceB c) = (!isSpaceB d) := by rw [hcd]
          rw [hb]
          exact hrest
    · rw [runs_cons_new hr hcd]
      refine RunsAlt.cons _ [c] _ (by simp) ?_ ?_
      · intro x hx
        simp only [List.mem_singleton] at hx
        subst hx
        rfl
      · have hb : (!isSpaceB c) = isSpaceB d := by
          cases h1 : isSpaceB c <;> cases h2 : isSpaceB d <;> simp_all
        rw [hb]
        exact hid

theorem runs_uniform_append :
    ∀ (r : List Char) (b : Bool), r ≠ [] → (∀ c ∈ r, isSpaceB c = b) →
      ∀ l : List Char, (∀ c, l.head? = some c → isSpaceB c = (!b)) →
      runs (r ++ l) = r :: runs l := by
  intro r
  induction r with
  | nil => intro b h; exact absurd rfl h
  | cons c r' ih =>
    intro b _ huni l hl
    cases r' with
    | nil =>
      show runs (c :: l) = [c] :: runs l
      cases l with
      | nil => exact runs_cons_nil rfl
      | cons e l' =>
        obtain ⟨t, rs, hr⟩ := runs_head e l'
        have he : isSpaceB e = !b := hl e rfl
        have hc : isSpaceB c = b := huni c (List.mem_cons_self _ _)
        have hne : ¬ isSpaceB c = isSpaceB e := by
          rw [hc, he]
          cases b <;> simp
        rw [runs_cons_new hr hne, hr]
    | cons c'' r'' =>
      have h2 := ih b (by simp) (fun x hx => huni x (List.mem_cons_of_mem _ hx)) l hl
      show runs (c :: ((c'' :: r'') ++ l)) = (c :: c'' :: r'') :: runs l
      have hmerge : isSpaceB c = isSpaceB c'' := by
        rw [huni c (List.mem_cons_self _ _),
          huni c'' (List.mem_cons_of_mem _ (List.mem_cons_self _ _))]
      have h3 : (c'' :: r'') ++ l = c'' :: (r'' ++ l) := rfl
      rw [h3] at h2
      rw [show c :: ((c'' :: r'') ++ l) = c :: c'' :: (r'' ++ l) from rfl,
        runs_cons_merge h2 hmerge]

theorem RunsAlt.runs_flatten_eq :
    ∀ {b : Bool} {rs : List (List Char)}, RunsAlt b rs →
      runs rs.flatten = rs := by
  intro b rs h
  induction h with
  | nil => rfl
  | cons b r rest hne huni hrest ih =>
    show runs (r ++ rest.flatten) = r :: rest
    have hl : ∀ c, (rest.flatten).head? = some c → isSpaceB c = !b := by
      intro c hc
      cases hrest with
      | nil => simp at hc
      | cons _ r' rest' hne' huni' _ =>
        rw [show (r' :: rest').flatten = r' ++ rest'.flatten from rfl,
          List.head?_append_of_ne_nil _ hne'] at hc
        exact huni' c (mem_of_head?_eq hc)
    rw [runs_uniform_append r b hne huni _ hl, ih]

/-! #### `stepRun` and `formatarStr` -/

theorem stepRun_space {r : List Char} (huni : ∀ c ∈ r, isSpaceB c = true) :
    stepRun r = r := by
  cases r with
  | nil => rfl
  | cons d t =>
    show (if isSpaceB d = true then d :: t else fmtTok (d :: t)) = d :: t
    rw [if_pos (huni d (List.mem_cons_self _ _))]

theorem stepRun_word {r : List Char} (huni : ∀ c ∈ r, isSpaceB c = false)
    (hne : r ≠ []) : stepRun r = fmtTok r := by
  cases r with
  | nil => exact absurd rfl hne
  | cons d t =>
    show (if isSpaceB d = true then d :: t else fmtTok (d :: t)) = fmtTok (d :: t)
    rw [if_neg (by simp [huni d (List.mem_cons_self _ _)])]

theorem stepRun_ne_nil {r : List Char} (hne : r ≠ []) : stepRun r ≠ [] := by
  cases r with
  | nil => exact absurd rfl hne
  | cons d t =>
    show (if isSpaceB d = true then d :: t else fmtTok (d :: t)) ≠ []
    by_cases hd : isSpaceB d = true
    · rw [if_pos hd]
      simp
    · rw [if_neg hd]
      exact fmtTok_ne_nil (by simp)

theorem stepRun_cased (r : List Char) : CasedOf (stepRun r) r := by
  cases r with
  | nil => intro c hc; simp [stepRun] at hc
  | cons d t =>
    show CasedOf (if isSpaceB d = true then d :: t else fmtTok (d :: t)) (d :: t)
    by_cases hd : isSpaceB d = true
    · rw [if_pos hd]
      exact CasedOf.refl _
    · rw [if_neg hd]
      exact fmtTok_cased _

theorem RunsAlt.map_stepRun :
    ∀ {b : Bool} {rs : List (List Char)}, RunsAlt b rs →
      RunsAlt b (rs.map stepRun) := by
  intro b rs h
  induction h with
  | nil => exact RunsAlt.nil _
  | cons b r rest hne huni hrest ih =>
    rw [List.map_cons]
    refine RunsAlt.cons b (stepRun r) _ (stepRun_ne_nil hne) ?_ ih
    cases b with
    | true =>
      rw [stepRun_space huni]
      exact huni
    | false =>
      rw [stepRun_word huni hne]
      intro c hc
      exact (fmtTok_cased r).not_space huni c hc

theorem formatarStr_idem (s : List Char) :
    formatarStr (formatarStr s) = formatarStr s := by
  cases s with
  | nil => rfl
  | cons c rest =>
    have halt := runs_alt rest c
    have hmapped := halt.map_stepRun
    show formatarStr (((runs (c :: rest)).map stepRun).flatten) = _
    unfold formatarStr
    rw [hmapped.runs_flatten_eq, List.map_map]
    congr 1
    apply List.map_congr_left
    intro r hr
    obtain ⟨hne, b', huni⟩ := halt.mem' r hr
    show stepRun (stepRun r) = stepRun r
    cases b' with
    | true => rw [stepRun_space huni, stepRun_space huni]
    | false =>
      rw [stepRun_word huni hne,
        stepRun_word ((fmtTok_cased r).not_space huni) (fmtTok_ne_nil hne)]
      exact fmtTok_idem r

theorem flatten_ne_nil_head {x : List Char} {xs : List (List Char)}
    (hx : x ≠ []) : (x :: xs).flatten ≠ [] := by
  cases x with
  | nil => exact absurd rfl hx
  | cons a t =>
    show ((a :: t) ++ xs.flatten) ≠ []
    simp

theorem formatarStr_ne_nil {s : List Char} (h : s ≠ []) : formatarStr s ≠ [] := by
  cases s with
  | nil => exact absurd rfl h
  | cons c rest =>
    obtain ⟨t, rs, hr⟩ := runs_head c rest
    unfold formatarStr
    rw [hr, List.map_cons]
    exact flatten_ne_nil_head (stepRun_ne_nil (by simp))

theorem formatarStr_head_not_space {c : Char} {rest : List Char}
    (hc : isSpaceB c = false) :
    ∀ c', (formatarStr (c :: rest)).head? = some c' → isSpaceB c' = false := by
  intro c' h
  have halt := runs_alt rest c
  obtain ⟨t, rs, hr⟩ := runs_head c rest
  rw [hr] at halt
  cases halt with
  | cons _ _ _ hne huni hrest =>
    unfold formatarStr at h
    rw [hr, List.map_cons,
      show (stepRun (c :: t) :: (rs.map stepRun)).flatten
        = stepRun (c :: t) ++ (rs.map stepRun).flatten from rfl,
      List.head?_append_of_ne_nil _ (stepRun_ne_nil (by simp))] at h
    have hmem : c' ∈ stepRun (c :: t) := mem_of_head?_eq h
    exact (stepRun_cased _).not_space
      (fun x hx => by rw [huni x hx, hc]) c' hmem

theorem flatten_getLast? :
    ∀ (rs : List (List Char)) (r' : List Char), rs.getLast? = some r' →
      (∀ r ∈ rs, r ≠ []) → (rs.flatten).getLast? = r'.getLast? := by
  intro rs
  induction rs with
  | nil => intro r' h _; simp at h
  | cons r rs' ih =>
    intro r' h hne
    cases rs' with
    | nil =>
      have : r = r' := by simpa using h
      subst this
      show ((r ++ []).getLast?) = r.getLast?
      rw [List.append_nil]
    | cons r'' rs'' =>
      rw [List.getLast?_cons_cons] at h
      have hflat : ((r :: r'' :: rs'').flatten) = r ++ (r'' :: rs'').flatten := rfl
      rw [hflat, List.getLast?_append_of_ne_nil _
        (flatten_ne_nil_head (hne r'' (by simp)))]
      exact ih r' h (fun x hx => hne x (List.mem_cons_of_mem _ hx))

theorem formatarStr_getLast_not_space {s : List Char} {cl : Char}
    (hl : s.getLast? = some cl) (hcl : isSpaceB cl = false) :
    ∀ c', (formatarStr s).getLast? = some c' → isSpaceB c' = false := by
  intro c' h
  cases s with
  | nil => simp at hl
  | cons c rest =>
    have halt := runs_alt rest c
    have hne_runs : runs (c :: rest) ≠ [] := by
      obtain ⟨t, rs, hr⟩ := runs_head c rest
      rw [hr]
      simp
    have hlast := List.getLast?_eq_getLast_of_ne_nil hne_runs
    set lastRun := (runs (c :: rest)).getLast hne_runs with hlr
    have hnonempty : ∀ r ∈ runs (c :: rest), r ≠ [] := runs_nonempty _
    have h1 : (((runs (c :: rest)).flatten).getLast?) = lastRun.getLast? :=
      flatten_getLast? _ _ hlast hnonempty
    rw [runs_flatten] at h1
    have h2 : lastRun.getLast? = some cl := by rw [← h1]; exact hl
    have hcl_mem : cl ∈ lastRun := mem_of_getLast?_eq h2
    have hlr_mem : lastRun ∈ runs (c :: rest) := mem_of_getLast?_eq hlast
    obtain ⟨hlne, b', huni⟩ := halt.mem' lastRun hlr_mem
    have hb' : b' = false := by
      rw [← huni cl hcl_mem]
      exact hcl
    unfold formatarStr at h
    have hmapne : ∀ r ∈ (runs (c :: rest)).map stepRun, r ≠ [] := by
      intro r hrm
      rcases List.mem_map.mp hrm with ⟨r₀, hr₀, rfl⟩
      exact stepRun_ne_nil (hnonempty r₀ hr₀)
    have hmaplast : ((runs (c :: rest)).map stepRun).getLast?
        = some (stepRun lastRun) := by
      rw [List.getLast?_map, hlast]
      rfl
    rw [flatten_getLast? _ _ hmaplast hmapne] at h
    have hmem : c' ∈ stepRun lastRun := mem_of_getLast?_eq h
    exact (stepRun_cased _).not_space
      (fun x hx => by rw [huni x hx, hb']) c' hmem

theorem suffix_getLast?_eq {α : Type} {l₂ l : List α} (h : l₂ <:+ l)
    (hne : l₂ ≠ []) : l.getLast? = l₂.getLast? := by
  obtain ⟨pre, rfl⟩ := h
  rw [List.getLast?_append_of_ne_nil _ hne]

theorem pyStrip_head_not_space {s : List Char} :
    ∀ c, (pyStrip s).head? = some c → isSpaceB c = false := by
  intro c h
  unfold pyStrip at h
  rw [List.head?_reverse] at h
  have hne : (s.dropWhile isSpaceB).reverse.dropWhile isSpaceB ≠ [] := by
    intro hcon
    rw [hcon] at h
    simp at h
  rw [← suffix_getLast?_eq (List.dropWhile_suffix _) hne, List.getLast?_reverse] at h
  have hdw := List.head?_dropWhile_not isSpaceB s
  rw [h] at hdw
  exact hdw

theorem pyStrip_getLast_not_space {s : List Char} :
    ∀ c, (pyStrip s).getLast? = some c → isSpaceB c = false := by
  intro c h
  unfold pyStrip at h
  rw [List.getLast?_reverse] at h
  have hdw := List.head?_dropWhile_not isSpaceB (s.dropWhile isSpaceB).reverse
  rw [h] at hdw
  exact hdw

theorem pyStrip_formatarStr {s : List Char} (h : pyStrip s ≠ []) :
    pyStrip (formatarStr (pyStrip s)) = formatarStr (pyStrip s) := by
  cases hps : pyStrip s with
  | nil => exact absurd hps h
  | cons c rest =>
    have hc : isSpaceB c = false := pyStrip_head_not_space c (by rw [hps]; rfl)
    apply pyStrip_eq_self
    · intro c' hc'
      exact formatarStr_head_not_space hc c' hc'
    · intro c' hc'
      have hlast := List.getLast?_eq_getLast_of_ne_nil
        (show (c :: rest : List Char) ≠ [] by simp)
      refine formatarStr_getLast_not_space hlast ?_ c' hc'
      exact pyStrip_getLast_not_space _ (by rw [hps]; exact hlast)

theorem formatarMarcaTitlecase_idem (m : Option (List Char)) :
    formatarMarcaTitlecase (formatarMarcaTitlecase m) = formatarMarcaTitlecase m := by
  cases m with
  | none => rfl
  | some s =>
    have h1 : formatarMarcaTitlecase (some s)
        = if pyStrip s = [] then Option.none
          else some (formatarStr (pyStrip s)) := rfl
    rw [h1]
    by_cases h : pyStrip s = []
    · rw [if_pos h]
      rfl
    · rw [if_neg h]
      have h2 : formatarMarcaTitlecase (some (formatarStr (pyStrip s)))
          = if pyStrip (formatarStr (pyStrip s)) = [] then Option.none
            else some (formatarStr (pyStrip (formatarStr (pyStrip s)))) := rfl
      rw [h2, pyStrip_formatarStr h, if_neg (formatarStr_ne_nil h),
        formatarStr_idem]

/-- C10 counterexample: the title-case formatter does not preserve
every whitespace-separated token that contains a digit.  The single
token "abc-3d" contains the digit '3', yet the formatter rewrites it
to "Abc-3d": the digit guard of `_fmt_piece` applies piece-by-piece
after splitting on the delimiters '-', '/', '&', '+' and on the
apostrophe, not to the whole whitespace token. -/
theorem formatarMarca_token_digit_counterexample :
    ("abc-3d".toList.any isDigitB = true)
    ∧ formatarMarcaTitlecase (some "abc-3d".toList) = some "Abc-3d".toList
    ∧ formatarMarcaTitlecase (some "abc-3d".toList) ≠ some "abc-3d".toList :=
  ⟨by decide, by decide, by decide⟩

/-- C10 (amended): the reported brand is the title-cased reformatting
of the canonical form: a `None` brand stays `None`, a blank brand
(stripped to empty) is reported as `None`, and otherwise the stripped
brand is reformatted token by token.  The digit guard applies to the
individual pieces obtained after splitting on the delimiters
'-', '/', '&', '+' and on apostrophes — a piece containing a digit is
preserved unchanged, every other nonempty piece is rewritten with its
first character uppercased and the remaining characters lowercased —
and the whole reformatting is idempotent. -/
theorem formatarMarca_titlecase_spec :
    (∀ m, formatarMarcaTitlecase (formatarMarcaTitlecase m)
        = formatarMarcaTitlecase m)
    ∧ formatarMarcaTitlecase Option.none = Option.none
    ∧ (∀ s, pyStrip s = [] → formatarMarcaTitlecase (some s) = Option.none)
    ∧ (∀ p, p.any isDigitB = true → fmtPiece p = p)
    ∧ (∀ (c : Char) (rest : List Char), (c :: rest).any isDigitB = false →
        fmtPiece (c :: rest) = pyUpperChar c :: rest.map pyLowerChar)
    ∧ formatarMarcaTitlecase (some "o'neill 3M tv".toList)
        = some "O'Neill 3M Tv".toList := by
  refine ⟨formatarMarcaTitlecase_idem, rfl, ?_, ?_, ?_, by decide⟩
  · intro s h
    show (if pyStrip s = [] then Option.none
      else some (formatarStr (pyStrip s))) = Option.none
    rw [if_pos h]
  · intro p h
    exact fmtPiece_digit h
  · intro c rest h
    exact fmtPiece_cons h

/-- C10 witness: the amended theorem evaluated at concrete inputs,
discharging each hypothesis. -/
theorem formatarMarca_titlecase_spec_witness :
    formatarMarcaTitlecase (some "  ".toList) = Option.none
    ∧ fmtPiece "3d".toList = "3d".toList
    ∧ fmtPiece "tv".toList = [pyUpperChar 't', pyLowerChar 'v'] :=
  ⟨formatarMarca_titlecase_spec.2.2.1 "  ".toList (by decide),
   formatarMarca_titlecase_spec.2.2.2.1 "3d".toList (by decide),
   formatarMarca_titlecase_spec.2.2.2.2.1 't' ['v'] (by decide)⟩

end PesquisaAmazon
